import Mathlib

/-!
Shallow embedding of the dependency-graph analysis of `src/graph.rs`:
graph construction from resolver metadata (`DepGraphBuilder`), the
classification-propagation pass (`update_dep_info` / `update_node`), and the
transitive-edge deduplication pass (`dedup_transitive_deps`).

The graph mirrors `petgraph::graph::DiGraph<Package, DepInfo, u16>`: an arena
of nodes and an arena of edges, plus per-node adjacency lists (`outAdj`,
`inAdj`) holding edge indices, most recently inserted first (petgraph inserts
new edges at the head of each endpoint's edge list).  `remove_edge` performs
petgraph's swap-remove: the last edge is renumbered into the removed slot and
the adjacency lists are repaired.  Indices are `Nat` (the `u16` index width of
the source is irrelevant to the graphs considered here).

`DepKind`, its combination rules, the `Package` record and its `dep_kind`
accessor live in files of the repository that are not part of the analyzed
source; those definitions are modelled from the spec and are marked
`Modelled from the spec:` in their doc comments.
-/

/-- Modelled from the spec: the dependency kinds of the Dependency-Kind
Model (`DepKind` of `dep_info.rs`, not in the analyzed source): Normal,
BuildTime, Development. -/
inductive DepKind where
  | normal
  | build
  | dev
deriving Repr, DecidableEq, BEq

/-- Modelled from the spec: restrictiveness rank of a kind, following the
spec's ordering "Normal > BuildTime > Development" (Normal is least
restrictive). -/
def kindRank : DepKind → Nat
  | .normal => 0
  | .build => 1
  | .dev => 2

/-- Modelled from the spec: `DepKind::combine_incoming` of `dep_info.rs` (not
in the analyzed source): the aggregate kind is the least-restrictive kind
among the two, where Normal dominates BuildTime and Development. -/
def DepKind.combine_incoming (k other : DepKind) : DepKind :=
  if kindRank other < kindRank k then other else k

/-- Modelled from the spec: `DepKind::update_outgoing` of `dep_info.rs` (not
in the analyzed source): per spec §4.2 step 4, an outgoing edge's kind is
combined with its source node's aggregate kind "using the same
least-restrictive rule". -/
def DepKind.update_outgoing (k node_kind : DepKind) : DepKind :=
  if kindRank node_kind < kindRank k then node_kind else k

/-- The per-edge info `DepInfo` (fields as used by `graph.rs`): the edge's
kind, whether the edge is conditioned on a target platform, and the
transient `visited` flag of the propagation pass. -/
structure DepInfo where
  kind : DepKind
  is_target_dep : Bool
  visited : Bool
deriving Repr, DecidableEq

/-- Modelled from the spec: the default `DepInfo` (kind Normal, not
target-specific, not visited). -/
def DepInfo.defaultInfo : DepInfo :=
  { kind := .normal, is_target_dep := false, visited := false }

/-- Modelled from the spec: the package node of the data model (`Package` of
`package.rs`, not in the analyzed source): identifier, the workspace-member
(root) flag, and the optional derived classification `dep_info`.  Name and
version are elided.  `graph.rs` dispatches on `dep_info.is_none()` to detect
workspace members ("Special case for workspace members"), so a non-root
package starts with `some` (default) classification and a root with `none`
(spec: "always absent for root packages by design"). -/
structure Package where
  id : String
  is_root : Bool
  dep_info : Option DepInfo
deriving Repr, DecidableEq

/-- Modelled from the spec: `Package::new` — roots carry no classification,
non-roots start with the default one (see `Package`). -/
def Package.new (id : String) (is_ws_member : Bool) : Package :=
  { id := id, is_root := is_ws_member,
    dep_info := if is_ws_member then none else some DepInfo.defaultInfo }

/-- Modelled from the spec: `Package::dep_kind` of `package.rs` (not in the
analyzed source): the classification-derived kind of a node, Normal when the
classification is absent (a root is unconditionally required). -/
def Package.dep_kind (p : Package) : DepKind :=
  match p.dep_info with
  | some d => d.kind
  | none => DepKind.normal

/-- A directed edge of the dependency graph: source node index, target node
index, and the edge weight `DepInfo`. -/
structure Edge where
  src : Nat
  dst : Nat
  info : DepInfo
deriving Repr, DecidableEq

/-- The dependency graph `DepGraph = DiGraph<Package, DepInfo, u16>`: node
arena, edge arena, and petgraph's per-node edge lists (edge indices, head =
most recently inserted). -/
structure DepGraph where
  nodes : Array Package
  edges : Array Edge
  outAdj : Array (List Nat)
  inAdj : Array (List Nat)
deriving Repr, DecidableEq

/-- Bounds-checked array update (no-op out of bounds). -/
def aset (a : Array α) (i : Nat) (v : α) : Array α :=
  if h : i < a.size then a.set ⟨i, h⟩ v else a

def defaultPackage : Package := { id := "", is_root := false, dep_info := none }

def defaultEdge : Edge := { src := 0, dst := 0, info := DepInfo.defaultInfo }

def DepGraph.node (g : DepGraph) (i : Nat) : Package := g.nodes.getD i defaultPackage

def DepGraph.edge (g : DepGraph) (e : Nat) : Edge := g.edges.getD e defaultEdge

def DepGraph.edgeInfo (g : DepGraph) (e : Nat) : DepInfo := (g.edge e).info

def DepGraph.outList (g : DepGraph) (n : Nat) : List Nat := g.outAdj.getD n []

def DepGraph.inList (g : DepGraph) (n : Nat) : List Nat := g.inAdj.getD n []

/-- `graph.neighbors_directed(n, Outgoing)` as node indices, in edge-list
order. -/
def DepGraph.outNeighbors (g : DepGraph) (n : Nat) : List Nat :=
  (g.outList n).map (fun e => (g.edge e).dst)

/-- `graph.neighbors_directed(n, Incoming).count()`: the number of incoming
edges of `n` (parallel edges counted separately). -/
def DepGraph.inDegree (g : DepGraph) (n : Nat) : Nat := (g.inList n).length

/-- The classification-derived kind of node `i` (`graph[i].dep_kind()`). -/
def DepGraph.depKindOf (g : DepGraph) (i : Nat) : DepKind := (g.node i).dep_kind

/-- Replace the `DepInfo` weight of edge `e`. -/
def setEdgeInfo (g : DepGraph) (e : Nat) (i : DepInfo) : DepGraph :=
  { g with edges := aset g.edges e { g.edge e with info := i } }

/-- Replace the classification of node `idx`. -/
def setDepInfo (g : DepGraph) (idx : Nat) (di : Option DepInfo) : DepGraph :=
  { g with nodes := aset g.nodes idx { g.node idx with dep_info := di } }

/-- The edge rewrite done by the workspace-member branch of `update_node`:
`graph[edge_idx].visited = true`. -/
def markVal (i : DepInfo) : DepInfo := { i with visited := true }

/-- The edge rewrite done by the final loop of `update_node`:
`visited = true`, `is_target_dep |= node_info.is_target_dep`,
`kind.update_outgoing(node_info.kind)`. -/
def pushVal (i ni : DepInfo) : DepInfo :=
  { kind := DepKind.update_outgoing i.kind ni.kind,
    is_target_dep := i.is_target_dep || ni.is_target_dep,
    visited := true }

/-- Rewrite the weight of each listed edge with `f` of its current weight. -/
def overEdges (f : DepInfo → DepInfo) (g : DepGraph) (es : List Nat) : DepGraph :=
  es.foldl (fun g e => setEdgeInfo g e (f (g.edgeInfo e))) g

/-- The workspace-member branch of `update_node`: mark each listed edge
visited. -/
def markAllVisited (g : DepGraph) (es : List Nat) : DepGraph :=
  overEdges markVal g es

/-- The final loop of `update_node`, applying `pushVal` (the projection of
the node's aggregate onto the edge) to each outgoing edge. -/
def pushOutgoing (g : DepGraph) (es : List Nat) (ni : DepInfo) : DepGraph :=
  overEdges (fun i => pushVal i ni) g es

/-- One accumulation step of `update_node`'s incoming loop: seed the
aggregate with the first edge's info, then `is_target_dep &=` and
`kind.combine_incoming` for each further edge. -/
def aggStep (g : DepGraph) (acc : Option DepInfo) (e : Nat) : Option DepInfo :=
  match acc with
  | some i =>
    some { i with is_target_dep := i.is_target_dep && (g.edgeInfo e).is_target_dep,
                  kind := DepKind.combine_incoming i.kind (g.edgeInfo e).kind }
  | none => some (g.edgeInfo e)

/-- The pure aggregation of a list of incoming edges (the value the incoming
loop computes when no recursion is needed). -/
def aggIncoming (g : DepGraph) : List Nat → Option DepInfo → Option DepInfo
  | [], acc => acc
  | e :: rest, acc => aggIncoming g rest (aggStep g acc e)

/-- The incoming-edge loop of `update_node`, parameterized by the recursive
node updater `un`: recursively finalize the source of each not-yet-visited
incoming edge, check `assert!(edge_info.visited)`, and accumulate the
aggregate `node_info` with `aggStep`. -/
def processIncomingF (un : DepGraph → Nat → Option DepGraph) (g : DepGraph)
    (es : List Nat) (acc : Option DepInfo) : Option (DepGraph × Option DepInfo) :=
  match es with
  | [] => some (g, acc)
  | e :: rest =>
    match (if (g.edgeInfo e).visited then some g
           else un g ((g.edge e).src)) with
    | none => none
    | some g1 =>
      if (g1.edgeInfo e).visited then
        processIncomingF un g1 rest (aggStep g1 acc e)
      else none  -- assert!(edge_info.visited)

/-- `update_node` of `graph.rs`.  Fuel bounds the recursion depth (the Rust
recursion is guarded only by edge `visited` flags); `none` models
non-termination / stack exhaustion or a failed `assert!` / `expect`. -/
def updateNode : Nat → DepGraph → Nat → Option DepGraph
  | 0, _, _ => none
  | fuel + 1, g, idx =>
    if (g.node idx).dep_info.isNone then
      -- Special case for workspace members
      some (markAllVisited g (g.outList idx))
    else
      match processIncomingF (fun g' i => updateNode fuel g' i) g (g.inList idx) none with
      | none => none
      | some (_, none) => none  -- expect: at least one incoming edge
      | some (g1, some ni) =>
        let g2 := setDepInfo g1 idx (some ni)
        some (pushOutgoing g2 (g2.outList idx) ni)

/-- The incoming-edge loop with the depth budget `fuel` for each recursive
`update_node` call. -/
def processIncoming (fuel : Nat) (g : DepGraph) (es : List Nat)
    (acc : Option DepInfo) : Option (DepGraph × Option DepInfo) :=
  processIncomingF (fun g' i => updateNode fuel g' i) g es acc

theorem updateNode_zero (g : DepGraph) (idx : Nat) : updateNode 0 g idx = none := rfl

theorem updateNode_succ (fuel : Nat) (g : DepGraph) (idx : Nat) :
    updateNode (fuel + 1) g idx =
      if (g.node idx).dep_info.isNone then
        some (markAllVisited g (g.outList idx))
      else
        match processIncoming fuel g (g.inList idx) none with
        | none => none
        | some (_, none) => none
        | some (g1, some ni) =>
          let g2 := setDepInfo g1 idx (some ni)
          some (pushOutgoing g2 (g2.outList idx) ni) := rfl

theorem processIncoming_nil (fuel : Nat) (g : DepGraph) (acc : Option DepInfo) :
    processIncoming fuel g [] acc = some (g, acc) := rfl

theorem processIncoming_cons (fuel : Nat) (g : DepGraph) (e : Nat) (rest : List Nat)
    (acc : Option DepInfo) :
    processIncoming fuel g (e :: rest) acc =
      match (if (g.edgeInfo e).visited then some g
             else updateNode fuel g ((g.edge e).src)) with
      | none => none
      | some g1 =>
        if (g1.edgeInfo e).visited then
          processIncoming fuel g1 rest (aggStep g1 acc e)
        else none := rfl

/-- `update_dep_info` of `graph.rs`: run `update_node` on every node index. -/
def updateDepInfo (fuel : Nat) (g : DepGraph) : Option DepGraph :=
  (List.range g.nodes.size).foldl
    (fun acc idx => acc.bind fun g' => updateNode fuel g' idx) (some g)

/-- The successor of `e` in petgraph's edge list `l` (the walker's stored
next-edge pointer after returning `e`). -/
def listSucc (l : List Nat) (e : Nat) : Option Nat :=
  match l.dropWhile (fun x => x ≠ e) with
  | _ :: x :: _ => some x
  | _ => none

/-- Rename edge index `old` to `new'` in an adjacency list (petgraph's link
repair after a swap-remove). -/
def renameInList (l : List Nat) (old new' : Nat) : List Nat :=
  l.map (fun x => if x = old then new' else x)

/-- `graph.remove_edge(e)` on a petgraph `DiGraph`: unlink `e` from the edge
lists of its endpoints, then swap-remove it from the edge arena, renumbering
the formerly-last edge to `e` in the lists of its own endpoints. -/
def removeEdge (g : DepGraph) (e : Nat) : DepGraph :=
  if _h : e < g.edges.size then
    let ed := g.edge e
    let out1 := g.outAdj.modify ed.src (fun l => l.erase e)
    let in1 := g.inAdj.modify ed.dst (fun l => l.erase e)
    let last := g.edges.size - 1
    if e = last then
      { g with edges := g.edges.pop, outAdj := out1, inAdj := in1 }
    else
      let led := g.edge last
      { g with
        edges := (aset g.edges e led).pop,
        outAdj := out1.modify led.src (fun l => renameInList l last e),
        inAdj := in1.modify led.dst (fun l => renameInList l last e) }
  else g

/-- Enumeration backing `petgraph::algo::all_simple_paths` (, 1, None): all
simple paths from the start node to `target` with at least one intermediate
node, as node sequences including both endpoints.  `path` holds the nodes
walked so far, most recent first; `cur` is the last node of `path`. -/
def simplePathsAux (g : DepGraph) (target : Nat) :
    Nat → List Nat → Nat → List (List Nat)
  | 0, _, _ => []
  | fuel + 1, path, cur =>
    (g.outNeighbors cur).flatMap fun nxt =>
      if nxt = target then
        if 2 ≤ path.length then [path.reverse ++ [target]] else []
      else if path.contains nxt then []
      else simplePathsAux g target fuel (nxt :: path) nxt

/-- `all_simple_paths::<Vec<_>, _>(&*graph, idx, node_idx, 1, None)`. -/
def allSimplePaths (g : DepGraph) (a b : Nat) : List (List Nat) :=
  simplePathsAux g b g.nodes.size [a] a

/-- The body of the `while let Some((edge_idx, node_idx)) = outgoing.next`
loop of `dedup_transitive_deps` for the current edge `e`: `none` ends the
walk (the stored index is invalid — removed or out of range, as in petgraph
— or the successor has fewer than two incoming edges, which `break`s);
otherwise the (possibly reduced) graph and the walker's next stored edge
index are returned.  The next index is read from the edge links before any
removal, exactly as petgraph's detached walker does. -/
def dedupStep (g : DepGraph) (e : Nat) : Option (DepGraph × Option Nat) :=
  if e < g.edges.size then
    let ed := g.edge e
    let nxt := listSucc (g.outList ed.src) e
    if g.inDegree ed.dst < 2 then
      -- graph[idx] is the only node that depends on graph[node_idx]: break
      none
    else
      let node_kind := g.depKindOf ed.dst
      let paths := allSimplePaths g ed.src ed.dst
      if paths.any (fun p => p.all (fun i => g.depKindOf i == node_kind)) then
        some (removeEdge g e, nxt)
      else
        some (g, nxt)
  else none

/-- The walk over one node's outgoing edge list.  Fuel only bounds the loop;
it is never exhausted on the graphs considered. -/
def dedupEdges (g : DepGraph) (cur : Option Nat) : Nat → DepGraph
  | 0 => g
  | fuel + 1 =>
    match cur with
    | none => g
    | some e =>
      match dedupStep g e with
      | none => g
      | some (g1, nxt) => dedupEdges g1 nxt fuel

/-- The body of the outer `for idx in graph.node_indices()` loop of
`dedup_transitive_deps`. -/
def dedupNode (g : DepGraph) (idx : Nat) : DepGraph :=
  dedupEdges g (g.outList idx).head? (g.edges.size + 1)

/-- `dedup_transitive_deps` of `graph.rs`. -/
def dedupTransitiveDeps (g : DepGraph) : DepGraph :=
  (List.range g.nodes.size).foldl dedupNode g

/-! ## The graph builder (`DepGraphBuilder`) and its metadata input -/

/-- The configuration options gating edge admission (`cli::Config`, fields as
read by `skip_dep`). -/
structure Config where
  normal_deps : Bool
  build_deps : Bool
  dev_deps : Bool
  target_deps : Bool
deriving Repr, DecidableEq

/-- `cargo_metadata::DependencyKind`. -/
inductive MetaDepKind where
  | normal
  | build
  | development
deriving Repr, DecidableEq, BEq

/-- Modelled from the spec: the `From<cargo_metadata::DependencyKind>`
conversion of `dep_info.rs` (not in the analyzed source): the evident
kind-for-kind mapping. -/
def MetaDepKind.toDepKind : MetaDepKind → DepKind
  | .normal => .normal
  | .build => .build
  | .development => .dev

/-- `cargo_metadata::DepKindInfo`: one (kind, optional target) declaration. -/
structure DepKindInfo where
  kind : MetaDepKind
  target : Option String
deriving Repr, DecidableEq

/-- One resolved dependency: the dependency's package id and its (kind,
target) declarations. -/
structure NodeDep where
  pkg : String
  dep_kinds : List DepKindInfo
deriving Repr, DecidableEq

/-- One node of the cargo resolve output. -/
structure ResolveNode where
  id : String
  deps : List NodeDep
deriving Repr, DecidableEq

/-- `cargo_metadata::Resolve`. -/
structure Resolve where
  nodes : List ResolveNode
deriving Repr, DecidableEq

/-- A package record of the metadata (`cargo_metadata::Package`, reduced to
its identifier). -/
structure MetaPackage where
  id : String
deriving Repr, DecidableEq

/-- `cargo_metadata::Metadata` as consumed by the builder. -/
structure Metadata where
  packages : List MetaPackage
  workspace_members : List String
  resolve : Option Resolve
deriving Repr, DecidableEq

/-- `skip_dep` of `graph.rs`. -/
def skip_dep (config : Config) (info : DepKindInfo) : Bool :=
  (!config.normal_deps && info.kind == MetaDepKind.normal)
    || (!config.build_deps && info.kind == MetaDepKind.build)
    || (!config.dev_deps && info.kind == MetaDepKind.development)
    || (!config.target_deps && info.target.isSome)

/-- `pop_package` of `graph.rs`: take the first matching record out of the
pending package table. -/
def pop_package : List (Option MetaPackage) → String →
    Option (MetaPackage × List (Option MetaPackage))
  | [], _ => none
  | some p :: rest, pid =>
    if p.id = pid then some (p, none :: rest)
    else (pop_package rest pid).map (fun pr => (pr.1, some p :: pr.2))
  | none :: rest, pid => (pop_package rest pid).map (fun pr => (pr.1, none :: pr.2))

/-- Failure modes of graph construction: `err` models an `anyhow` error
returned to the caller (`?` on a `.context(…)`), `panicked` models a Rust
panic (`unwrap` / `assert!`), `outOfFuel` models a worklist run longer than
the supplied fuel (never reached on the inputs considered). -/
inductive BuildErr where
  | err (msg : String)
  | panicked (msg : String)
  | outOfFuel
deriving Repr, DecidableEq

/-- The builder state `DepGraphBuilder` of `graph.rs` (the `HashMap` of node
indices is modelled as an association list, the `VecDeque` as a list with
front at the head). -/
structure DepGraphBuilder where
  graph : DepGraph
  node_indices : List (String × Nat)
  deps_add_queue : List String
  workspace_members : List String
  packages : List (Option MetaPackage)
  resolve : Resolve
deriving Repr, DecidableEq

/-- `graph.add_node(p)`: push the node, open its (empty) edge lists, return
the new index. -/
def addNode (g : DepGraph) (p : Package) : DepGraph × Nat :=
  ({ nodes := g.nodes.push p, edges := g.edges,
     outAdj := g.outAdj.push [], inAdj := g.inAdj.push [] }, g.nodes.size)

/-- `graph.add_edge(a, b, info)`: push the edge and insert its index at the
head of both endpoints' edge lists. -/
def addEdge (g : DepGraph) (a b : Nat) (info : DepInfo) : DepGraph :=
  let e := g.edges.size
  { nodes := g.nodes,
    edges := g.edges.push { src := a, dst := b, info := info },
    outAdj := aset g.outAdj a (e :: g.outList a),
    inAdj := aset g.inAdj b (e :: g.inList b) }

/-- `add_workspace_members` of `graph.rs`: pop each workspace member's
record (an error returned if absent), add it as a root node, enqueue it, and
record its index (`assert!(old_val.is_none())`). -/
def addWsMembers : List String → DepGraphBuilder → Except BuildErr DepGraphBuilder
  | [], b => .ok b
  | pkg_id :: rest, b =>
    match pop_package b.packages pkg_id with
    | none => .error (.err "package not found in packages")
    | some (pkg, packages') =>
      let gi := addNode b.graph (Package.new pkg.id true)
      match b.node_indices.lookup pkg_id with
      | some _ => .error (.panicked "assertion failed: old_val.is_none()")
      | none =>
        addWsMembers rest
          { b with graph := gi.1, packages := packages',
                   deps_add_queue := b.deps_add_queue ++ [pkg_id],
                   node_indices := b.node_indices ++ [(pkg_id, gi.2)] }

/-- The `for info in &dep.dep_kinds` loop of `add_dependencies`: add one
parallel edge per non-skipped (kind, target) declaration. -/
def addKindEdges (config : Config) (parent_idx child_idx : Nat)
    (infos : List DepKindInfo) (g : DepGraph) : DepGraph :=
  infos.foldl
    (fun g info =>
      if !skip_dep config info then
        addEdge g parent_idx child_idx
          { kind := info.kind.toDepKind,
            is_target_dep := info.target.isSome,
            visited := false }
      else g)
    g

/-- The `for dep in &resolve_node.deps` loop of `add_dependencies`: skip a
dependency all of whose declarations are filtered; otherwise find or create
the child node (the record lookup is an `unwrap` — a missing record is a
panic, not a returned error) and add its edges. -/
def addDeps (config : Config) (parent_idx : Nat) :
    List NodeDep → DepGraphBuilder → Except BuildErr DepGraphBuilder
  | [], b => .ok b
  | dep :: rest, b =>
    if dep.dep_kinds.all (fun i => skip_dep config i) then
      addDeps config parent_idx rest b
    else
      match b.node_indices.lookup dep.pkg with
      | some child_idx =>
        addDeps config parent_idx rest
          { b with graph := addKindEdges config parent_idx child_idx dep.dep_kinds b.graph }
      | none =>
        match pop_package b.packages dep.pkg with
        | none => .error (.panicked "called Option::unwrap on a None value")
        | some (pkg, packages') =>
          let gi := addNode b.graph (Package.new pkg.id false)
          addDeps config parent_idx rest
            { b with
              graph := addKindEdges config parent_idx gi.2 dep.dep_kinds gi.1,
              packages := packages',
              deps_add_queue := b.deps_add_queue ++ [dep.pkg],
              node_indices := b.node_indices ++ [(dep.pkg, gi.2)] }

/-- `add_dependencies` of `graph.rs`: process the worklist of packages whose
dependencies still need to be added. -/
def addDependencies (config : Config) : Nat → DepGraphBuilder → Except BuildErr DepGraphBuilder
  | 0, _ => .error .outOfFuel
  | fuel + 1, b =>
    match b.deps_add_queue with
    | [] => .ok b
    | pkg_id :: queueRest =>
      match b.node_indices.lookup pkg_id with
      | none => .error (.err "trying to add deps of package that is not in the graph")
      | some parent_idx =>
        match b.resolve.nodes.find? (fun n => n.id == pkg_id) with
        | none => .error (.err "package not found in resolve")
        | some resolve_node =>
          match addDeps config parent_idx resolve_node.deps
              { b with deps_add_queue := queueRest } with
          | .error e => .error e
          | .ok b' => addDependencies config fuel b'

/-- The empty `DepGraph` (`with_capacity` allocates only). -/
def DepGraph.initial : DepGraph := { nodes := #[], edges := #[], outAdj := #[], inAdj := #[] }

/-- `get_dep_graph` of `graph.rs`: `DepGraphBuilder::new` (an error if the
metadata has no resolve), `add_workspace_members`, `add_dependencies`. -/
def getDepGraph (fuel : Nat) (metadata : Metadata) (config : Config) :
    Except BuildErr DepGraph :=
  match metadata.resolve with
  | none =>
    .error (.err "Couldn't obtain dependency graph. Your cargo version may be too old.")
  | some resolve =>
    let b0 : DepGraphBuilder :=
      { graph := DepGraph.initial, node_indices := [], deps_add_queue := [],
        workspace_members := metadata.workspace_members,
        packages := metadata.packages.map some, resolve := resolve }
    match addWsMembers b0.workspace_members b0 with
    | .error e => .error e
    | .ok b1 =>
      match addDependencies config fuel b1 with
      | .error e => .error e
      | .ok b2 => .ok b2.graph

/-! ## Basic facts about array access and the graph update primitives -/

theorem getD_lt {α : Type _} (a : Array α) (i : Nat) (d : α) (h : i < a.size) :
    a.getD i d = a[i] := by
  rw [Array.getD_eq_get?, Array.getElem?_eq_getElem h]
  rfl

theorem getD_ge {α : Type _} (a : Array α) (i : Nat) (d : α) (h : ¬ i < a.size) :
    a.getD i d = d := by
  rw [Array.getD_eq_get?, Array.getD_get?, dif_neg h]

theorem aset_size {α : Type _} (a : Array α) (i : Nat) (v : α) :
    (aset a i v).size = a.size := by
  unfold aset; split <;> simp

theorem aset_oob {α : Type _} {a : Array α} {i : Nat} (v : α) (h : ¬ i < a.size) :
    aset a i v = a := dif_neg h

theorem getD_aset_same {α : Type _} {a : Array α} {i : Nat} (v d : α) (h : i < a.size) :
    (aset a i v).getD i d = v := by
  unfold aset
  rw [dif_pos h, getD_lt _ _ _ (by simpa using h)]
  exact Array.get_set_eq a ⟨i, h⟩ v

theorem getD_aset_ne {α : Type _} {a : Array α} {i j : Nat} (v d : α) (hne : j ≠ i) :
    (aset a i v).getD j d = a.getD j d := by
  unfold aset
  split
  · rename_i h
    by_cases hj : j < a.size
    · rw [getD_lt _ _ _ (by simpa using hj), getD_lt _ _ _ hj]
      exact Array.get_set_ne a ⟨i, h⟩ v hj (fun he => hne he.symm)
    · rw [getD_ge _ _ _ (by simpa using hj), getD_ge _ _ _ hj]
  · rfl

theorem aset_getD_self {α : Type _} (a : Array α) (i : Nat) (d : α) :
    aset a i (a.getD i d) = a := by
  unfold aset
  split
  · rename_i h
    apply Array.ext
    · simp
    · intro j hj1 hj2
      by_cases he : i = j
      · subst he
        simp
      · exact Array.get_set_ne a ⟨i, h⟩ _ hj2 he
  · rfl

theorem setEdgeInfo_oob {g : DepGraph} {e : Nat} (i : DepInfo)
    (h : ¬ e < g.edges.size) : setEdgeInfo g e i = g := by
  unfold setEdgeInfo
  rw [aset_oob _ h]

theorem setEdgeInfo_nodes (g : DepGraph) (e : Nat) (i : DepInfo) :
    (setEdgeInfo g e i).nodes = g.nodes := rfl

theorem setEdgeInfo_outAdj (g : DepGraph) (e : Nat) (i : DepInfo) :
    (setEdgeInfo g e i).outAdj = g.outAdj := rfl

theorem setEdgeInfo_inAdj (g : DepGraph) (e : Nat) (i : DepInfo) :
    (setEdgeInfo g e i).inAdj = g.inAdj := rfl

theorem setEdgeInfo_edges_size (g : DepGraph) (e : Nat) (i : DepInfo) :
    (setEdgeInfo g e i).edges.size = g.edges.size := aset_size _ _ _

theorem edge_setEdgeInfo_ne {g : DepGraph} {e e' : Nat} (i : DepInfo) (h : e' ≠ e) :
    (setEdgeInfo g e i).edge e' = g.edge e' := by
  unfold setEdgeInfo DepGraph.edge
  exact getD_aset_ne _ _ h

theorem edge_setEdgeInfo_same {g : DepGraph} {e : Nat} (i : DepInfo)
    (h : e < g.edges.size) :
    (setEdgeInfo g e i).edge e = { g.edge e with info := i } := by
  unfold setEdgeInfo DepGraph.edge
  exact getD_aset_same _ _ h

theorem edge_setEdgeInfo_src (g : DepGraph) (e e' : Nat) (i : DepInfo) :
    ((setEdgeInfo g e i).edge e').src = (g.edge e').src := by
  by_cases he : e' = e
  · subst he
    by_cases h : e' < g.edges.size
    · rw [edge_setEdgeInfo_same _ h]
    · rw [setEdgeInfo_oob _ h]
  · rw [edge_setEdgeInfo_ne _ he]

theorem edge_setEdgeInfo_dst (g : DepGraph) (e e' : Nat) (i : DepInfo) :
    ((setEdgeInfo g e i).edge e').dst = (g.edge e').dst := by
  by_cases he : e' = e
  · subst he
    by_cases h : e' < g.edges.size
    · rw [edge_setEdgeInfo_same _ h]
    · rw [setEdgeInfo_oob _ h]
  · rw [edge_setEdgeInfo_ne _ he]

theorem setEdgeInfo_self (g : DepGraph) (e : Nat) :
    setEdgeInfo g e (g.edgeInfo e) = g := by
  unfold setEdgeInfo DepGraph.edgeInfo
  have : { g.edge e with info := (g.edge e).info } = g.edge e := rfl
  rw [this]
  show { g with edges := aset g.edges e (g.edges.getD e defaultEdge) } = g
  rw [aset_getD_self]

theorem setDepInfo_edges (g : DepGraph) (idx : Nat) (di : Option DepInfo) :
    (setDepInfo g idx di).edges = g.edges := rfl

theorem setDepInfo_outAdj (g : DepGraph) (idx : Nat) (di : Option DepInfo) :
    (setDepInfo g idx di).outAdj = g.outAdj := rfl

theorem setDepInfo_inAdj (g : DepGraph) (idx : Nat) (di : Option DepInfo) :
    (setDepInfo g idx di).inAdj = g.inAdj := rfl

theorem setDepInfo_nodes_size (g : DepGraph) (idx : Nat) (di : Option DepInfo) :
    (setDepInfo g idx di).nodes.size = g.nodes.size := aset_size _ _ _

theorem node_setDepInfo_ne {g : DepGraph} {idx i : Nat} (di : Option DepInfo)
    (h : i ≠ idx) : (setDepInfo g idx di).node i = g.node i := by
  unfold setDepInfo DepGraph.node
  exact getD_aset_ne _ _ h

theorem node_setDepInfo_same {g : DepGraph} {idx : Nat} (di : Option DepInfo)
    (h : idx < g.nodes.size) :
    (setDepInfo g idx di).node idx = { g.node idx with dep_info := di } := by
  unfold setDepInfo DepGraph.node
  exact getD_aset_same _ _ h

theorem setDepInfo_oob {g : DepGraph} {idx : Nat} (di : Option DepInfo)
    (h : ¬ idx < g.nodes.size) : setDepInfo g idx di = g := by
  unfold setDepInfo
  rw [aset_oob _ h]

theorem setDepInfo_self (g : DepGraph) (idx : Nat) :
    setDepInfo g idx ((g.node idx).dep_info) = g := by
  unfold setDepInfo DepGraph.node
  have : { g.node idx with dep_info := (g.node idx).dep_info } = g.node idx := rfl
  show { g with nodes := aset g.nodes idx { g.node idx with dep_info := (g.node idx).dep_info } } = g
  rw [this]
  show { g with nodes := aset g.nodes idx (g.nodes.getD idx defaultPackage) } = g
  rw [aset_getD_self]

/-! ## Structure preservation and pointwise characterization of `overEdges` -/

/-- Everything the propagation pass leaves untouched: node and edge counts,
adjacency, edge endpoints, node identity/rootness, and presence/absence of a
classification. -/
def structPres (g g' : DepGraph) : Prop :=
  g'.nodes.size = g.nodes.size ∧ g'.edges.size = g.edges.size ∧
  g'.outAdj = g.outAdj ∧ g'.inAdj = g.inAdj ∧
  (∀ e, ((g'.edge e).src = (g.edge e).src ∧ (g'.edge e).dst = (g.edge e).dst)) ∧
  (∀ i, (g'.node i).id = (g.node i).id ∧ (g'.node i).is_root = (g.node i).is_root ∧
    (g'.node i).dep_info.isNone = (g.node i).dep_info.isNone)

theorem structPres_refl (g : DepGraph) : structPres g g :=
  ⟨rfl, rfl, rfl, rfl, fun _ => ⟨rfl, rfl⟩, fun _ => ⟨rfl, rfl, rfl⟩⟩

theorem structPres_trans {g1 g2 g3 : DepGraph}
    (h12 : structPres g1 g2) (h23 : structPres g2 g3) : structPres g1 g3 := by
  obtain ⟨a1, b1, c1, d1, e1, f1⟩ := h12
  obtain ⟨a2, b2, c2, d2, e2, f2⟩ := h23
  refine ⟨a2.trans a1, b2.trans b1, c2.trans c1, d2.trans d1, fun e => ?_, fun i => ?_⟩
  · exact ⟨(e2 e).1.trans (e1 e).1, (e2 e).2.trans (e1 e).2⟩
  · exact ⟨(f2 i).1.trans (f1 i).1, (f2 i).2.1.trans (f1 i).2.1, (f2 i).2.2.trans (f1 i).2.2⟩

theorem structPres_outList {g g' : DepGraph} (h : structPres g g') (n : Nat) :
    g'.outList n = g.outList n := by
  unfold DepGraph.outList
  rw [h.2.2.1]

theorem structPres_inList {g g' : DepGraph} (h : structPres g g') (n : Nat) :
    g'.inList n = g.inList n := by
  unfold DepGraph.inList
  rw [h.2.2.2.1]

theorem structPres_setEdgeInfo (g : DepGraph) (e : Nat) (i : DepInfo) :
    structPres g (setEdgeInfo g e i) := by
  refine ⟨rfl, setEdgeInfo_edges_size g e i, rfl, rfl, fun e' => ?_, fun i' => ⟨rfl, rfl, rfl⟩⟩
  exact ⟨edge_setEdgeInfo_src g e e' i, edge_setEdgeInfo_dst g e e' i⟩

theorem structPres_setDepInfo_some (g : DepGraph) (idx : Nat) (ni : DepInfo)
    (h : (g.node idx).dep_info.isNone = false) :
    structPres g (setDepInfo g idx (some ni)) := by
  refine ⟨setDepInfo_nodes_size g idx _, rfl, rfl, rfl, fun e => ⟨rfl, rfl⟩, fun i => ?_⟩
  by_cases hi : i = idx
  · subst hi
    by_cases hlt : i < g.nodes.size
    · rw [node_setDepInfo_same _ hlt]
      refine ⟨rfl, rfl, ?_⟩
      simp [h]
    · rw [setDepInfo_oob _ hlt]
      exact ⟨rfl, rfl, rfl⟩
  · rw [node_setDepInfo_ne _ hi]
    exact ⟨rfl, rfl, rfl⟩

theorem structPres_overEdges (f : DepInfo → DepInfo) (es : List Nat) (g : DepGraph) :
    structPres g (overEdges f g es) := by
  induction es generalizing g with
  | nil => exact structPres_refl g
  | cons e rest ih =>
    exact structPres_trans (structPres_setEdgeInfo g e _) (ih _)

theorem overEdges_notMem (f : DepInfo → DepInfo) {es : List Nat} {e' : Nat}
    (g : DepGraph) (h : e' ∉ es) :
    (overEdges f g es).edge e' = g.edge e' := by
  induction es generalizing g with
  | nil => rfl
  | cons e rest ih =>
    have hne : e' ≠ e := fun hh => h (hh ▸ List.mem_cons_self e rest)
    have h2 : e' ∉ rest := fun hh => h (List.mem_cons_of_mem e hh)
    show (overEdges f (setEdgeInfo g e (f (g.edgeInfo e))) rest).edge e' = g.edge e'
    rw [ih _ h2, edge_setEdgeInfo_ne _ hne]

theorem overEdges_mem_nodup (f : DepInfo → DepInfo) {es : List Nat} {e' : Nat}
    (g : DepGraph) (hnd : es.Nodup) (hmem : e' ∈ es) (hlt : e' < g.edges.size) :
    (overEdges f g es).edgeInfo e' = f (g.edgeInfo e') := by
  induction es generalizing g with
  | nil => cases hmem
  | cons e rest ih =>
    rcases List.mem_cons.mp hmem with he | he
    · subst he
      have hnr : e' ∉ rest := (List.nodup_cons.mp hnd).1
      show ((overEdges f (setEdgeInfo g e' (f (g.edgeInfo e'))) rest).edge e').info =
        f (g.edgeInfo e')
      rw [overEdges_notMem f _ hnr, edge_setEdgeInfo_same _ hlt]
    · have hne : e' ≠ e := fun hh =>
        (List.nodup_cons.mp hnd).1 (hh ▸ he)
      show (overEdges f (setEdgeInfo g e (f (g.edgeInfo e))) rest).edgeInfo e' =
        f (g.edgeInfo e')
      have : (setEdgeInfo g e (f (g.edgeInfo e))).edgeInfo e' = g.edgeInfo e' := by
        unfold DepGraph.edgeInfo
        rw [edge_setEdgeInfo_ne _ hne]
      rw [ih _ (List.nodup_cons.mp hnd).2 he
        (by rw [setEdgeInfo_edges_size]; exact hlt), this]

theorem overEdges_id (f : DepInfo → DepInfo) {es : List Nat} (g : DepGraph)
    (h : ∀ e ∈ es, f (g.edgeInfo e) = g.edgeInfo e) :
    overEdges f g es = g := by
  induction es generalizing g with
  | nil => rfl
  | cons e rest ih =>
    show overEdges f (setEdgeInfo g e (f (g.edgeInfo e))) rest = g
    rw [h e (List.mem_cons_self e rest), setEdgeInfo_self]
    exact ih _ (fun e' he' => h e' (List.mem_cons_of_mem e he'))

theorem overEdges_visited_mono (f : DepInfo → DepInfo)
    (hf : ∀ i, (f i).visited = true) {es : List Nat} (g : DepGraph) (e' : Nat)
    (h : (g.edgeInfo e').visited = true) :
    ((overEdges f g es).edgeInfo e').visited = true := by
  induction es generalizing g with
  | nil => exact h
  | cons e rest ih =>
    show ((overEdges f (setEdgeInfo g e (f (g.edgeInfo e))) rest).edgeInfo e').visited = true
    apply ih
    unfold DepGraph.edgeInfo
    by_cases he : e' = e
    · subst he
      by_cases hlt : e' < g.edges.size
      · rw [edge_setEdgeInfo_same _ hlt]
        exact hf _
      · rw [setEdgeInfo_oob _ hlt]
        exact h
    · rw [edge_setEdgeInfo_ne _ he]
      exact h

theorem overEdges_written_visited (f : DepInfo → DepInfo)
    (hf : ∀ i, (f i).visited = true) {es : List Nat} {e' : Nat} (g : DepGraph)
    (hmem : e' ∈ es) (hlt : e' < g.edges.size) :
    ((overEdges f g es).edgeInfo e').visited = true := by
  induction es generalizing g with
  | nil => cases hmem
  | cons e rest ih =>
    show ((overEdges f (setEdgeInfo g e (f (g.edgeInfo e))) rest).edgeInfo e').visited = true
    rcases List.mem_cons.mp hmem with he | he
    · subst he
      by_cases hr : e' ∈ rest
      · exact ih _ hr (by rw [setEdgeInfo_edges_size]; exact hlt)
      · have h1 : (overEdges f (setEdgeInfo g e' (f (g.edgeInfo e'))) rest).edge e' =
          (setEdgeInfo g e' (f (g.edgeInfo e'))).edge e' := overEdges_notMem f _ hr
        show ((overEdges f (setEdgeInfo g e' (f (g.edgeInfo e'))) rest).edge e').info.visited = true
        rw [h1, edge_setEdgeInfo_same _ hlt]
        exact hf _
    · exact ih _ he (by rw [setEdgeInfo_edges_size]; exact hlt)

theorem overEdges_kind_ts (f : DepInfo → DepInfo)
    (hf : ∀ i, (f i).kind = i.kind ∧ (f i).is_target_dep = i.is_target_dep)
    (es : List Nat) (g : DepGraph) (e' : Nat) :
    ((overEdges f g es).edgeInfo e').kind = (g.edgeInfo e').kind ∧
    ((overEdges f g es).edgeInfo e').is_target_dep = (g.edgeInfo e').is_target_dep := by
  induction es generalizing g with
  | nil => exact ⟨rfl, rfl⟩
  | cons e rest ih =>
    show ((overEdges f (setEdgeInfo g e (f (g.edgeInfo e))) rest).edgeInfo e').kind =
        (g.edgeInfo e').kind ∧ _
    have hset : ((setEdgeInfo g e (f (g.edgeInfo e))).edgeInfo e').kind =
        (g.edgeInfo e').kind ∧
        ((setEdgeInfo g e (f (g.edgeInfo e))).edgeInfo e').is_target_dep =
        (g.edgeInfo e').is_target_dep := by
      unfold DepGraph.edgeInfo
      by_cases he : e' = e
      · subst he
        by_cases hlt : e' < g.edges.size
        · rw [edge_setEdgeInfo_same _ hlt]
          exact ⟨(hf _).1, (hf _).2⟩
        · rw [setEdgeInfo_oob _ hlt]
          exact ⟨rfl, rfl⟩
      · rw [edge_setEdgeInfo_ne _ he]
        exact ⟨rfl, rfl⟩
    obtain ⟨h1, h2⟩ := ih (setEdgeInfo g e (f (g.edgeInfo e)))
    exact ⟨h1.trans hset.1, h2.trans hset.2⟩

/-! ## The incoming-edge aggregation: pure characterization -/

theorem overEdges_nodes (f : DepInfo → DepInfo) (es : List Nat) (g : DepGraph) :
    (overEdges f g es).nodes = g.nodes := by
  induction es generalizing g with
  | nil => rfl
  | cons e rest ih => exact ih _

theorem processIncoming_allVisited (fuel : Nat) (g : DepGraph) (es : List Nat)
    (acc : Option DepInfo) (h : ∀ e ∈ es, (g.edgeInfo e).visited = true) :
    processIncoming fuel g es acc = some (g, aggIncoming g es acc) := by
  induction es generalizing acc with
  | nil => exact processIncoming_nil fuel g acc
  | cons e rest ih =>
    have hv : (g.edgeInfo e).visited = true := h e (List.mem_cons_self e rest)
    rw [processIncoming_cons]
    simp only [hv, if_true]
    exact ih _ (fun e' he' => h e' (List.mem_cons_of_mem e he'))

theorem aggIncoming_some (g : DepGraph) (es : List Nat) (i : DepInfo) :
    ∃ r, aggIncoming g es (some i) = some r ∧
      r.is_target_dep = (i.is_target_dep && es.all (fun e => (g.edgeInfo e).is_target_dep)) ∧
      r.kind = es.foldl (fun k e => DepKind.combine_incoming k (g.edgeInfo e).kind) i.kind ∧
      r.visited = i.visited := by
  induction es generalizing i with
  | nil =>
    refine ⟨i, rfl, ?_, rfl, rfl⟩
    simp
  | cons e rest ih =>
    obtain ⟨r, h1, h2, h3, h4⟩ := ih
      { i with is_target_dep := i.is_target_dep && (g.edgeInfo e).is_target_dep,
               kind := DepKind.combine_incoming i.kind (g.edgeInfo e).kind }
    refine ⟨r, h1, ?_, h3, h4⟩
    rw [h2]
    simp [Bool.and_assoc]

theorem aggIncoming_cons_none (g : DepGraph) (e : Nat) (rest : List Nat) :
    aggIncoming g (e :: rest) none = aggIncoming g rest (some (g.edgeInfo e)) := rfl

theorem combine_incoming_cases (a b : DepKind) :
    DepKind.combine_incoming a b = a ∨ DepKind.combine_incoming a b = b := by
  unfold DepKind.combine_incoming
  split
  · exact Or.inr rfl
  · exact Or.inl rfl

theorem combine_incoming_rank_left (a b : DepKind) :
    kindRank (DepKind.combine_incoming a b) ≤ kindRank a := by
  unfold DepKind.combine_incoming
  split
  · omega
  · omega

theorem combine_incoming_rank_right (a b : DepKind) :
    kindRank (DepKind.combine_incoming a b) ≤ kindRank b := by
  unfold DepKind.combine_incoming
  split
  · omega
  · omega

theorem foldKind_cases (g : DepGraph) (es : List Nat) (k0 : DepKind) :
    es.foldl (fun k e => DepKind.combine_incoming k (g.edgeInfo e).kind) k0 = k0 ∨
    es.foldl (fun k e => DepKind.combine_incoming k (g.edgeInfo e).kind) k0 ∈
      es.map (fun e => (g.edgeInfo e).kind) := by
  induction es generalizing k0 with
  | nil => exact Or.inl rfl
  | cons e rest ih =>
    simp only [List.foldl_cons, List.map_cons]
    rcases ih (DepKind.combine_incoming k0 (g.edgeInfo e).kind) with h | h
    · rw [h]
      rcases combine_incoming_cases k0 (g.edgeInfo e).kind with h2 | h2
      · exact Or.inl h2
      · refine Or.inr ?_
        rw [h2]
        exact List.mem_cons_self _ _
    · exact Or.inr (List.mem_cons_of_mem _ h)

theorem foldKind_rank_seed (g : DepGraph) (es : List Nat) (k0 : DepKind) :
    kindRank (es.foldl (fun k e => DepKind.combine_incoming k (g.edgeInfo e).kind) k0) ≤
      kindRank k0 := by
  induction es generalizing k0 with
  | nil => exact le_refl _
  | cons e rest ih =>
    simp only [List.foldl_cons]
    exact le_trans (ih _) (combine_incoming_rank_left _ _)

theorem foldKind_rank_mem (g : DepGraph) (es : List Nat) (k0 : DepKind) :
    ∀ e ∈ es, kindRank (es.foldl (fun k e => DepKind.combine_incoming k (g.edgeInfo e).kind) k0)
      ≤ kindRank (g.edgeInfo e).kind := by
  induction es generalizing k0 with
  | nil => intro e he; cases he
  | cons a rest ih =>
    intro e he
    simp only [List.foldl_cons]
    rcases List.mem_cons.mp he with h | h
    · subst h
      exact le_trans (foldKind_rank_seed g rest _) (combine_incoming_rank_right _ _)
    · exact ih _ e h

/-- If a node has a classification slot and all of its incoming edges are
visited, `update_node` computes its aggregate purely from the incoming
edges; the result graph and the aggregate are made explicit. -/
theorem updateNode_aggregation (fuel : Nat) (g : DepGraph) (idx : Nat) (r : DepInfo)
    (hsome : (g.node idx).dep_info.isNone = false)
    (hvis : ∀ e ∈ g.inList idx, (g.edgeInfo e).visited = true)
    (hagg : aggIncoming g (g.inList idx) none = some r) :
    updateNode (fuel + 1) g idx =
      some (pushOutgoing (setDepInfo g idx (some r))
        ((setDepInfo g idx (some r)).outList idx) r) := by
  rw [updateNode_succ, processIncoming_allVisited fuel g _ none hvis, hagg]
  simp only [hsome, Bool.false_eq_true, if_false]

theorem node_lt_of_isNone_false {g : DepGraph} {idx : Nat}
    (h : (g.node idx).dep_info.isNone = false) : idx < g.nodes.size := by
  by_contra hn
  have : g.node idx = defaultPackage := getD_ge _ _ _ hn
  rw [this] at h
  cases h

/-- Aggregation writes the aggregate into the node and leaves it there. -/
theorem updateNode_agg_node (fuel : Nat) (g : DepGraph) (idx : Nat) (r : DepInfo)
    (hsome : (g.node idx).dep_info.isNone = false)
    (hvis : ∀ e ∈ g.inList idx, (g.edgeInfo e).visited = true)
    (hagg : aggIncoming g (g.inList idx) none = some r) :
    ∃ g', updateNode (fuel + 1) g idx = some g' ∧ (g'.node idx).dep_info = some r := by
  refine ⟨_, updateNode_aggregation fuel g idx r hsome hvis hagg, ?_⟩
  show ((pushOutgoing (setDepInfo g idx (some r)) _ r).node idx).dep_info = some r
  unfold pushOutgoing
  unfold DepGraph.node
  rw [show ∀ (gx : DepGraph) es f, (overEdges f gx es).nodes = gx.nodes from
    fun gx es f => overEdges_nodes f es gx]
  have := @node_setDepInfo_same g idx (some r) (node_lt_of_isNone_false hsome)
  unfold DepGraph.node at this
  rw [show (setDepInfo g idx (some r)).nodes.getD idx defaultPackage =
    { g.node idx with dep_info := some r } from this]

/-! ## Claims C1 and C2: the per-node aggregation -/

/-- Concrete graph: a root `R` (node 0) with two parallel edges into `D`
(node 1): edge 0 Normal and target-specific, edge 1 BuildTime and not
target-specific; both already finalized. -/
def gTwoPar : DepGraph :=
  { nodes := #[{ id := "R", is_root := true, dep_info := none },
               { id := "D", is_root := false, dep_info := some DepInfo.defaultInfo }],
    edges := #[{ src := 0, dst := 1,
                 info := { kind := .normal, is_target_dep := true, visited := true } },
               { src := 0, dst := 1,
                 info := { kind := .build, is_target_dep := false, visited := true } }],
    outAdj := #[[1, 0], []],
    inAdj := #[[], [1, 0]] }

/-- C1: for every non-root node processed by the classification propagator
(its incoming edges finalized, as the propagator's dependency order
guarantees), the aggregated `is_target_specific` of its classification is
the logical AND of `is_target_dep` over all of its incoming edges. -/
theorem c1_aggregate_target_and (fuel : Nat) (g : DepGraph) (idx : Nat)
    (hsome : (g.node idx).dep_info.isNone = false)
    (hvis : ∀ e ∈ g.inList idx, (g.edgeInfo e).visited = true)
    (hne : g.inList idx ≠ []) :
    ∃ g' ni, updateNode (fuel + 1) g idx = some g' ∧
      (g'.node idx).dep_info = some ni ∧
      ni.is_target_dep = (g.inList idx).all (fun e => (g.edgeInfo e).is_target_dep) := by
  obtain ⟨e, rest, hes⟩ : ∃ e rest, g.inList idx = e :: rest := by
    cases h : g.inList idx with
    | nil => exact absurd h hne
    | cons a l => exact ⟨a, l, rfl⟩
  obtain ⟨r, hagg, hts, hkind, hv⟩ := aggIncoming_some g rest (g.edgeInfo e)
  have hagg' : aggIncoming g (g.inList idx) none = some r := by
    rw [hes]
    exact hagg
  obtain ⟨g', h1, h2⟩ := updateNode_agg_node fuel g idx r hsome hvis hagg'
  refine ⟨g', r, h1, h2, ?_⟩
  rw [hts, hes]
  simp [List.all_cons]

/-- Witness for C1 at a concrete two-parallel-edge graph: a root with two
edges into `D`, one target-specific and one not; the aggregate
`is_target_dep` is the AND over both (hence `false`). -/
theorem c1_aggregate_target_and_witness :
    ∃ g' ni, updateNode 1 gTwoPar 1 = some g' ∧
      (g'.node 1).dep_info = some ni ∧
      ni.is_target_dep = (gTwoPar.inList 1).all (fun e => (gTwoPar.edgeInfo e).is_target_dep) :=
  c1_aggregate_target_and 0 gTwoPar 1 (by decide) (by decide) (by decide)

/-- C2: for every non-root node processed by the classification propagator
(its incoming edges finalized), the aggregated kind of its classification is
the least-restrictive kind among its incoming edges: it occurs among the
incoming edges' kinds and its restrictiveness rank (Normal < BuildTime <
Development) is minimal among them. -/
theorem c2_aggregate_kind_least (fuel : Nat) (g : DepGraph) (idx : Nat)
    (hsome : (g.node idx).dep_info.isNone = false)
    (hvis : ∀ e ∈ g.inList idx, (g.edgeInfo e).visited = true)
    (hne : g.inList idx ≠ []) :
    ∃ g' ni, updateNode (fuel + 1) g idx = some g' ∧
      (g'.node idx).dep_info = some ni ∧
      ni.kind ∈ (g.inList idx).map (fun e => (g.edgeInfo e).kind) ∧
      ∀ e ∈ g.inList idx, kindRank ni.kind ≤ kindRank (g.edgeInfo e).kind := by
  obtain ⟨e, rest, hes⟩ : ∃ e rest, g.inList idx = e :: rest := by
    cases h : g.inList idx with
    | nil => exact absurd h hne
    | cons a l => exact ⟨a, l, rfl⟩
  obtain ⟨r, hagg, hts, hkind, hv⟩ := aggIncoming_some g rest (g.edgeInfo e)
  have hagg' : aggIncoming g (g.inList idx) none = some r := by
    rw [hes]
    exact hagg
  obtain ⟨g', h1, h2⟩ := updateNode_agg_node fuel g idx r hsome hvis hagg'
  refine ⟨g', r, h1, h2, ?_, ?_⟩
  · rw [hkind, hes, List.map_cons]
    rcases foldKind_cases g rest (g.edgeInfo e).kind with h | h
    · rw [h]
      exact List.mem_cons_self _ _
    · exact List.mem_cons_of_mem _ h
  · intro e' he'
    rw [hkind]
    rw [hes] at he'
    rcases List.mem_cons.mp he' with h | h
    · subst h
      exact foldKind_rank_seed g rest _
    · exact foldKind_rank_mem g rest _ e' h

/-- Witness for C2 at a concrete graph where `D` is reachable via one
BuildTime edge and one Normal edge: the aggregate kind is least restrictive
among them (hence Normal). -/
theorem c2_aggregate_kind_least_witness :
    ∃ g' ni, updateNode 1 gTwoPar 1 = some g' ∧
      (g'.node 1).dep_info = some ni ∧
      ni.kind ∈ (gTwoPar.inList 1).map (fun e => (gTwoPar.edgeInfo e).kind) ∧
      ∀ e ∈ gTwoPar.inList 1, kindRank ni.kind ≤ kindRank (gTwoPar.edgeInfo e).kind :=
  c2_aggregate_kind_least 0 gTwoPar 1 (by decide) (by decide) (by decide)

/-! ## Claims C4 and C5: the transitive reducer on concrete graphs -/

/-- The diamond graph of C4 before propagation, with edges in builder
insertion order: R→B, R→C, R→D, B→D, C→D, all Normal and not
target-specific (R = 0, B = 1, C = 2, D = 3). -/
def gDiamond : DepGraph :=
  { nodes := #[Package.new "R" true, Package.new "B" false,
               Package.new "C" false, Package.new "D" false],
    edges := #[{ src := 0, dst := 1, info := DepInfo.defaultInfo },
               { src := 0, dst := 2, info := DepInfo.defaultInfo },
               { src := 0, dst := 3, info := DepInfo.defaultInfo },
               { src := 1, dst := 3, info := DepInfo.defaultInfo },
               { src := 2, dst := 3, info := DepInfo.defaultInfo }],
    outAdj := #[[2, 1, 0], [3], [4], []],
    inAdj := #[[], [0], [1], [4, 3, 2]] }

/-- The diamond of C4 with a uniform edge labelling: every edge carries
kind `k` and target-specificity `t` (same node and adjacency layout as
`gDiamond`). -/
def gDiamondK (k : DepKind) (t : Bool) : DepGraph :=
  { nodes := #[Package.new "R" true, Package.new "B" false,
               Package.new "C" false, Package.new "D" false],
    edges := #[{ src := 0, dst := 1, info := { kind := k, is_target_dep := t, visited := false } },
               { src := 0, dst := 2, info := { kind := k, is_target_dep := t, visited := false } },
               { src := 0, dst := 3, info := { kind := k, is_target_dep := t, visited := false } },
               { src := 1, dst := 3, info := { kind := k, is_target_dep := t, visited := false } },
               { src := 2, dst := 3, info := { kind := k, is_target_dep := t, visited := false } }],
    outAdj := #[[2, 1, 0], [3], [4], []],
    inAdj := #[[], [0], [1], [4, 3, 2]] }

/-- Counterexample to C4 as stated: with all five diamond edges of kind
Development and equal (false) target-specificity — an instance of the
claim's "all edges carry the same kind and target-specificity" — the
pipeline retains the direct edge R→D instead of removing it. -/
theorem c4_diamond_reduction_counterexample :
    (updateDepInfo 8 (gDiamondK DepKind.dev false)).map
      (fun g => (dedupTransitiveDeps g).edges.any (fun ed => ed.src == 0 && ed.dst == 3)) =
      some true := by decide

/-- C4 (amended): on the uniformly-labelled diamond R→B, R→C, B→D, C→D,
R→D after propagation, the transitive reducer removes the direct edge R→D
exactly when the common kind is Normal (for either target-specificity),
always retaining B→D and C→D.  For a uniform BuildTime or Development
labelling the direct edge survives: the redundancy check compares the
classification-derived kind of every node on an alternate path — including
the root R itself, whose derived kind is always Normal — with D's
classification, so no path matches. -/
theorem c4_diamond_reduction_normal :
    ∀ (k : DepKind) (t : Bool),
      (updateDepInfo 8 (gDiamondK k t)).map
        (fun g =>
          ((dedupTransitiveDeps g).edges.any (fun ed => ed.src == 0 && ed.dst == 3),
           (dedupTransitiveDeps g).edges.any (fun ed => ed.src == 1 && ed.dst == 3),
           (dedupTransitiveDeps g).edges.any (fun ed => ed.src == 2 && ed.dst == 3))) =
        some (k != DepKind.normal, true, true) := by
  intro k t
  cases k <;> cases t <;> decide

/-- The graph exhibiting the `break` in `dedup_transitive_deps` (A = 0,
X = 1, B = 2, C = 3; edges in insertion order A→C, A→X, X→C, A→B, all
Normal).  A's outgoing walk starts at A→B; B has in-degree 1. -/
def gBreak : DepGraph :=
  { nodes := #[Package.new "A" true, Package.new "X" false,
               Package.new "B" false, Package.new "C" false],
    edges := #[{ src := 0, dst := 3, info := DepInfo.defaultInfo },
               { src := 0, dst := 1, info := DepInfo.defaultInfo },
               { src := 1, dst := 3, info := DepInfo.defaultInfo },
               { src := 0, dst := 2, info := DepInfo.defaultInfo }],
    outAdj := #[[3, 1, 0], [2], [], []],
    inAdj := #[[], [1], [3], [2, 0]] }

/-- C5 (code behavior at the failing input): after propagation on `gBreak`,
the reducer keeps all four edges — in particular the direct edge A→C
(edge 0) — even though C has in-degree 2 and the indirect path A→X→C
dominates it (third component `true`): the walk over A's successors `break`s
at A→B because B has in-degree 1 and never examines A→C.  Resuming the walk
at the edge A→C itself (last component) does remove it, so only the `break`
prevents the removal. -/
theorem c5_break_abandons_scan :
    (updateDepInfo 8 gBreak).map
      (fun g =>
        ((dedupTransitiveDeps g).edges.map (fun ed => (ed.src, ed.dst)),
         g.inDegree 3,
         (allSimplePaths g 0 3).any (fun p => p.all (fun i => g.depKindOf i == g.depKindOf 3)),
         (dedupEdges g (some 0) 5).edges.any (fun ed => ed.src == 0 && ed.dst == 3))) =
      some (#[(0, 3), (0, 1), (1, 3), (0, 2)], 2, true, false) := by decide

/-! ## Well-formedness and the propagation invariants -/

/-- Every listed outgoing edge belongs to its list's node. -/
def outSrcOK (g : DepGraph) : Prop :=
  ∀ n, ∀ e ∈ g.outList n, (g.edge e).src = n

/-- Well-formedness of a `DepGraph`, as the builder establishes it:
adjacency arrays sized with the node arena; every listed edge index valid
and owned by its node; outgoing lists duplicate-free; every edge's endpoints
valid, distinct (a package does not depend on itself) and registered in both
endpoint lists; and a node is a workspace member exactly when its
classification slot is absent. -/
def WF (g : DepGraph) : Prop :=
  g.outAdj.size = g.nodes.size ∧
  g.inAdj.size = g.nodes.size ∧
  (∀ n < g.nodes.size, ∀ e ∈ g.outList n, e < g.edges.size ∧ (g.edge e).src = n) ∧
  (∀ n < g.nodes.size, ∀ e ∈ g.inList n, e < g.edges.size ∧ (g.edge e).dst = n) ∧
  (∀ n < g.nodes.size, (g.outList n).Nodup) ∧
  (∀ e < g.edges.size, (g.edge e).src < g.nodes.size ∧ (g.edge e).dst < g.nodes.size ∧
    (g.edge e).src ≠ (g.edge e).dst ∧
    e ∈ g.outList ((g.edge e).src) ∧ e ∈ g.inList ((g.edge e).dst)) ∧
  (∀ i < g.nodes.size, (g.node i).is_root = (g.node i).dep_info.isNone)

instance (g : DepGraph) : Decidable (WF g) := by
  unfold WF
  infer_instance

theorem outList_ge {g : DepGraph} {n : Nat} (hsz : g.outAdj.size = g.nodes.size)
    (h : ¬ n < g.nodes.size) : g.outList n = [] := by
  unfold DepGraph.outList
  exact getD_ge _ _ _ (by rw [hsz]; exact h)

theorem inList_ge {g : DepGraph} {n : Nat} (hsz : g.inAdj.size = g.nodes.size)
    (h : ¬ n < g.nodes.size) : g.inList n = [] := by
  unfold DepGraph.inList
  exact getD_ge _ _ _ (by rw [hsz]; exact h)

theorem WF.toOutSrcOK {g : DepGraph} (hwf : WF g) : outSrcOK g := by
  intro n e he
  by_cases hn : n < g.nodes.size
  · exact (hwf.2.2.1 n hn e he).2
  · rw [outList_ge hwf.1 hn] at he
    cases he

/-- Everything `update_node` preserves unconditionally: structure, edges
already visited stay visited, classification absence is preserved pointwise,
and the kind / target flag of any edge whose source is a workspace member
(classification absent) is untouched. -/
def propaPres (g g' : DepGraph) : Prop :=
  structPres g g' ∧
  (∀ e, (g.edgeInfo e).visited = true → (g'.edgeInfo e).visited = true) ∧
  (∀ i, (g.node i).dep_info = none → (g'.node i).dep_info = none) ∧
  (∀ e, (g.node ((g.edge e).src)).dep_info = none →
    (g'.edgeInfo e).kind = (g.edgeInfo e).kind ∧
    (g'.edgeInfo e).is_target_dep = (g.edgeInfo e).is_target_dep)

theorem propaPres_refl (g : DepGraph) : propaPres g g :=
  ⟨structPres_refl g, fun _ h => h, fun _ h => h, fun _ _ => ⟨rfl, rfl⟩⟩

theorem isNone_eq_none {p : Package} (h : p.dep_info.isNone = true) :
    p.dep_info = none := Option.isNone_iff_eq_none.mp h

theorem none_isNone {p : Package} (h : p.dep_info = none) :
    p.dep_info.isNone = true := by rw [h]; rfl

theorem propaPres_trans {g1 g2 g3 : DepGraph}
    (h12 : propaPres g1 g2) (h23 : propaPres g2 g3) : propaPres g1 g3 := by
  obtain ⟨s12, v12, n12, f12⟩ := h12
  obtain ⟨s23, v23, n23, f23⟩ := h23
  refine ⟨structPres_trans s12 s23, fun e h => v23 e (v12 e h),
    fun i h => n23 i (n12 i h), fun e h => ?_⟩
  have hsrc2 : (g2.node ((g2.edge e).src)).dep_info = none := by
    rw [(s12.2.2.2.2.1 e).1]
    exact n12 _ h
  obtain ⟨k23, t23⟩ := f23 e hsrc2
  obtain ⟨k12, t12⟩ := f12 e h
  exact ⟨k23.trans k12, t23.trans t12⟩

theorem outSrcOK_transport {g g' : DepGraph} (hs : structPres g g')
    (ho : outSrcOK g) : outSrcOK g' := by
  intro n e he
  rw [structPres_outList hs n] at he
  rw [(hs.2.2.2.2.1 e).1]
  exact ho n e he

theorem overEdges_node (f : DepInfo → DepInfo) (es : List Nat) (g : DepGraph) (i : Nat) :
    (overEdges f g es).node i = g.node i := by
  unfold DepGraph.node
  rw [overEdges_nodes]

/-- Induction statement for `updateNode`: on success, the propagation
invariants hold and every outgoing edge of the processed node is visited. -/
def NodeStmt (fuel : Nat) : Prop :=
  ∀ g idx g', outSrcOK g → updateNode fuel g idx = some g' →
    propaPres g g' ∧
    ∀ e ∈ g.outList idx, e < g.edges.size → (g'.edgeInfo e).visited = true

/-- Induction statement for `processIncoming`: on success, the propagation
invariants hold and every processed incoming edge is visited. -/
def ProcStmt (fuel : Nat) : Prop :=
  ∀ g es acc out, outSrcOK g → processIncoming fuel g es acc = some out →
    propaPres g out.1 ∧ ∀ e ∈ es, (out.1.edgeInfo e).visited = true

theorem updateNode_root_case (g : DepGraph) (idx : Nat) :
    propaPres g (markAllVisited g (g.outList idx)) ∧
    ∀ e ∈ g.outList idx, e < g.edges.size →
      ((markAllVisited g (g.outList idx)).edgeInfo e).visited = true := by
  constructor
  · refine ⟨structPres_overEdges _ _ _, ?_, ?_, ?_⟩
    · intro e h
      exact overEdges_visited_mono markVal (fun _ => rfl) g e h
    · intro i h
      unfold markAllVisited
      rw [overEdges_node]
      exact h
    · intro e _
      exact overEdges_kind_ts markVal (fun _ => ⟨rfl, rfl⟩) _ g e
  · intro e he hlt
    exact overEdges_written_visited markVal (fun _ => rfl) g he hlt

theorem procStmt_of_nodeStmt (fuel : Nat) (hnode : NodeStmt fuel) : ProcStmt fuel := by
  intro g es acc out ho heq
  induction es generalizing g acc with
  | nil =>
    rw [processIncoming_nil] at heq
    cases heq
    exact ⟨propaPres_refl _, by intro e he; cases he⟩
  | cons e rest ih =>
    rw [processIncoming_cons] at heq
    cases hv : (g.edgeInfo e).visited with
    | true =>
      simp only [hv, if_true] at heq
      obtain ⟨pp, pvis⟩ := ih g (aggStep g acc e) ho heq
      refine ⟨pp, ?_⟩
      intro e' he'
      rcases List.mem_cons.mp he' with h | h
      · subst h
        exact pp.2.1 e' hv
      · exact pvis e' h
    | false =>
      simp only [hv, Bool.false_eq_true, if_false] at heq
      cases hu : updateNode fuel g ((g.edge e).src) with
      | none =>
        rw [hu] at heq
        cases heq
      | some gA =>
        rw [hu] at heq
        obtain ⟨ppA, _⟩ := hnode g _ gA ho hu
        cases hv2 : (gA.edgeInfo e).visited with
        | false =>
          simp only [hv2, Bool.false_eq_true, if_false] at heq
          cases heq
        | true =>
          simp only [hv2, if_true] at heq
          obtain ⟨ppR, pvisR⟩ := ih gA (aggStep gA acc e) (outSrcOK_transport ppA.1 ho) heq
          refine ⟨propaPres_trans ppA ppR, ?_⟩
          intro e' he'
          rcases List.mem_cons.mp he' with h | h
          · subst h
            exact ppR.2.1 e' hv2
          · exact pvisR e' h

theorem nodeStmt_succ (fuel : Nat) (hproc : ProcStmt fuel) : NodeStmt (fuel + 1) := by
  intro g idx g' ho heq
  rw [updateNode_succ] at heq
  cases hn : (g.node idx).dep_info.isNone with
  | true =>
    simp only [hn, if_true] at heq
    cases heq
    exact updateNode_root_case g idx
  | false =>
    simp only [hn, Bool.false_eq_true, if_false] at heq
    cases hp : processIncoming fuel g (g.inList idx) none with
    | none =>
      rw [hp] at heq
      cases heq
    | some pr =>
      rw [hp] at heq
      obtain ⟨g1, acc1⟩ := pr
      cases acc1 with
      | none => cases heq
      | some ni =>
        simp only at heq
        obtain ⟨pp1, _⟩ := hproc g (g.inList idx) none (g1, some ni) ho hp
        have hsome1 : (g1.node idx).dep_info.isNone = false := by
          rw [(pp1.1.2.2.2.2.2 idx).2.2, hn]
        have hlt1 : idx < g1.nodes.size := node_lt_of_isNone_false hsome1
        have pp2 : propaPres g1 (setDepInfo g1 idx (some ni)) := by
          refine ⟨structPres_setDepInfo_some g1 idx ni hsome1, fun e h => h, ?_, fun e _ => ⟨rfl, rfl⟩⟩
          intro i h
          by_cases hi : i = idx
          · subst hi
            rw [h] at hsome1
            cases hsome1
          · rw [node_setDepInfo_ne _ hi]
            exact h
        set g2 := setDepInfo g1 idx (some ni) with hg2
        have ho2 : outSrcOK g2 :=
          outSrcOK_transport (structPres_trans pp1.1 pp2.1) ho
        have hg2some : (g2.node idx).dep_info = some ni := by
          rw [hg2, node_setDepInfo_same _ hlt1]
        have pp3 : propaPres g2 (pushOutgoing g2 (g2.outList idx) ni) := by
          refine ⟨structPres_overEdges _ _ _, ?_, ?_, ?_⟩
          · intro e h
            exact overEdges_visited_mono _ (fun _ => rfl) g2 e h
          · intro i h
            rw [show pushOutgoing g2 (g2.outList idx) ni = overEdges (fun i => pushVal i ni) g2 (g2.outList idx) from rfl,
              overEdges_node]
            exact h
          · intro e h
            have hnot : e ∉ g2.outList idx := by
              intro hmem
              have hsrc : (g2.edge e).src = idx := ho2 idx e hmem
              rw [hsrc, hg2some] at h
              cases h
            have := overEdges_notMem (fun i => pushVal i ni) g2 hnot
            show ((pushOutgoing g2 (g2.outList idx) ni).edge e).info.kind = _ ∧
              ((pushOutgoing g2 (g2.outList idx) ni).edge e).info.is_target_dep = _
            rw [show pushOutgoing g2 (g2.outList idx) ni = overEdges (fun i => pushVal i ni) g2 (g2.outList idx) from rfl,
              this]
            exact ⟨rfl, rfl⟩
        injection heq with heq'
        refine ⟨?_, ?_⟩
        · rw [← heq']
          exact propaPres_trans (propaPres_trans pp1 pp2) pp3
        · intro e he hlt
          have hout2 : e ∈ g2.outList idx := by
            rw [structPres_outList (structPres_trans pp1.1 pp2.1) idx]
            exact he
          have hlt2 : e < g2.edges.size := by
            rw [(structPres_trans pp1.1 pp2.1).2.1]
            exact hlt
          rw [← heq']
          exact overEdges_written_visited (fun i => pushVal i ni) (fun _ => rfl) g2 hout2 hlt2

theorem propagation_invariants : ∀ fuel, NodeStmt fuel ∧ ProcStmt fuel := by
  intro fuel
  induction fuel with
  | zero =>
    have hn : NodeStmt 0 := by
      intro g idx g' _ heq
      rw [updateNode_zero] at heq
      cases heq
    exact ⟨hn, procStmt_of_nodeStmt 0 hn⟩
  | succ n ih =>
    have hn : NodeStmt (n + 1) := nodeStmt_succ n ih.2
    exact ⟨hn, procStmt_of_nodeStmt (n + 1) hn⟩

theorem foldl_bind_none (fuel : Nat) (l : List Nat) :
    l.foldl (fun acc idx => acc.bind fun gx => updateNode fuel gx idx) none = none := by
  induction l with
  | nil => rfl
  | cons a r ih => exact ih

theorem updateFold_pres (fuel : Nat) (l : List Nat) :
    ∀ g g', outSrcOK g →
      l.foldl (fun acc idx => acc.bind fun gx => updateNode fuel gx idx) (some g) = some g' →
      propaPres g g' ∧
      ∀ idx ∈ l, ∀ e ∈ g.outList idx, e < g.edges.size → (g'.edgeInfo e).visited = true := by
  induction l with
  | nil =>
    intro g g' _ h
    cases h
    exact ⟨propaPres_refl _, by intro idx hidx; cases hidx⟩
  | cons a r ih =>
    intro g g' ho h
    simp only [List.foldl_cons] at h
    have hstep : (some g).bind (fun gx => updateNode fuel gx a) = updateNode fuel g a := rfl
    rw [hstep] at h
    cases hu : updateNode fuel g a with
    | none =>
      rw [hu, foldl_bind_none] at h
      cases h
    | some g1 =>
      rw [hu] at h
      obtain ⟨pp1, vis1⟩ := (propagation_invariants fuel).1 g a g1 ho hu
      obtain ⟨ppR, visR⟩ := ih g1 g' (outSrcOK_transport pp1.1 ho) h
      refine ⟨propaPres_trans pp1 ppR, ?_⟩
      intro idx hidx e he hlt
      rcases List.mem_cons.mp hidx with hcase | hcase
      · subst hcase
        exact ppR.2.1 e (vis1 e he hlt)
      · have he1 : e ∈ g1.outList idx := by
          rw [structPres_outList pp1.1 idx]
          exact he
        have hlt1 : e < g1.edges.size := by
          rw [pp1.1.2.1]
          exact hlt
        exact visR idx hcase e he1 hlt1

theorem updateDepInfo_pres (fuel : Nat) (g g' : DepGraph) (ho : outSrcOK g)
    (h : updateDepInfo fuel g = some g') :
    propaPres g g' ∧
    ∀ idx ∈ List.range g.nodes.size, ∀ e ∈ g.outList idx, e < g.edges.size →
      (g'.edgeInfo e).visited = true :=
  updateFold_pres fuel (List.range g.nodes.size) g g' ho h

/-! ## Claims C3 and C9 -/

/-- C3: after one full propagation pass (`update_dep_info`) completes over a
well-formed graph in which every non-root node has at least one incoming
edge, every non-root node has a classification (`dep_info` is `some`) and
every edge's `visited` flag is true. -/
theorem c3_full_pass_postcondition (fuel : Nat) (g g' : DepGraph)
    (hwf : WF g)
    (hin : ∀ i < g.nodes.size, (g.node i).is_root = false → g.inList i ≠ [])
    (hrun : updateDepInfo fuel g = some g') :
    (∀ i < g'.nodes.size, (g'.node i).is_root = false →
      ∃ d, (g'.node i).dep_info = some d) ∧
    (∀ e < g'.edges.size, (g'.edgeInfo e).visited = true) := by
  obtain ⟨pp, vis⟩ := updateDepInfo_pres fuel g g' hwf.toOutSrcOK hrun
  constructor
  · intro i hi hroot
    have hi0 : i < g.nodes.size := by
      rw [← pp.1.1]
      exact hi
    have hrootg : (g.node i).is_root = false := by
      rw [← (pp.1.2.2.2.2.2 i).2.1]
      exact hroot
    have hnn : (g.node i).dep_info.isNone = false := by
      rw [← hwf.2.2.2.2.2.2 i hi0]
      exact hrootg
    have hnn' : (g'.node i).dep_info.isNone = false := by
      rw [(pp.1.2.2.2.2.2 i).2.2]
      exact hnn
    cases hd' : (g'.node i).dep_info with
    | none =>
      rw [hd'] at hnn'
      cases hnn'
    | some d' => exact ⟨d', rfl⟩
  · intro e he
    have he0 : e < g.edges.size := by
      rw [← pp.1.2.1]
      exact he
    obtain ⟨hsrc, _, _, hmem, _⟩ := hwf.2.2.2.2.2.1 e he0
    exact vis ((g.edge e).src) (List.mem_range.mpr hsrc) e hmem he0

/-- The diamond graph after the pass (concrete data for witnesses). -/
def gDiaDone : DepGraph := (updateDepInfo 8 gDiamond).getD DepGraph.initial

/-- Witness for C3 at the concrete diamond graph: node D (index 3, a
non-root) ends with a classification, and edge 2 (R→D) ends visited. -/
theorem c3_full_pass_postcondition_witness :
    (∃ d, (gDiaDone.node 3).dep_info = some d) ∧
    (gDiaDone.edgeInfo 2).visited = true := by
  have h := c3_full_pass_postcondition 8 gDiamond gDiaDone (by decide) (by decide) (by decide)
  exact ⟨h.1 3 (by decide) (by decide), h.2 2 (by decide)⟩

/-- C9: during the propagation pass, an edge whose source is a root
(workspace-member) node is only marked visited: its kind and
`is_target_dep` keep exactly the values they had before the pass. -/
theorem c9_root_outgoing_frame (fuel : Nat) (g g' : DepGraph) (hwf : WF g)
    (hrun : updateDepInfo fuel g = some g') :
    ∀ e < g.edges.size, (g.node ((g.edge e).src)).is_root = true →
      (g'.edgeInfo e).kind = (g.edgeInfo e).kind ∧
      (g'.edgeInfo e).is_target_dep = (g.edgeInfo e).is_target_dep ∧
      (g'.edgeInfo e).visited = true := by
  obtain ⟨pp, vis⟩ := updateDepInfo_pres fuel g g' hwf.toOutSrcOK hrun
  intro e he hroot
  have hsrclt := (hwf.2.2.2.2.2.1 e he).1
  have hmem := (hwf.2.2.2.2.2.1 e he).2.2.2.1
  have hnone : (g.node ((g.edge e).src)).dep_info = none := by
    apply isNone_eq_none
    rw [← hwf.2.2.2.2.2.2 _ hsrclt]
    exact hroot
  obtain ⟨hk, ht⟩ := pp.2.2.2 e hnone
  exact ⟨hk, ht, vis _ (List.mem_range.mpr hsrclt) e hmem he⟩

/-- Witness for C9 at the concrete diamond graph: the root-sourced edge 2
(R→D) keeps its kind and target flag and is visited after the pass. -/
theorem c9_root_outgoing_frame_witness :
    (gDiaDone.edgeInfo 2).kind = (gDiamond.edgeInfo 2).kind ∧
    (gDiaDone.edgeInfo 2).is_target_dep = (gDiamond.edgeInfo 2).is_target_dep ∧
    (gDiaDone.edgeInfo 2).visited = true :=
  c9_root_outgoing_frame 8 gDiamond gDiaDone (by decide) (by decide) 2 (by decide) (by decide)

/-! ## Claim C10: the reducer never empties a node's incoming edges -/

theorem getD_modify_ne {a : Array (List Nat)} {i j : Nat}
    (f : List Nat → List Nat) (h : j ≠ i) :
    (a.modify i f).getD j [] = a.getD j [] := by
  by_cases hj : j < a.size
  · rw [getD_lt _ _ _ (by simpa using hj), getD_lt _ _ _ hj]
    rw [Array.getElem_modify]
    exact if_neg (fun hh => h hh.symm)
  · rw [getD_ge _ _ _ (by simpa using hj), getD_ge _ _ _ hj]

theorem getD_modify_same {a : Array (List Nat)} {i : Nat}
    (f : List Nat → List Nat) (h : i < a.size) :
    (a.modify i f).getD i [] = f (a.getD i []) := by
  rw [getD_lt _ _ _ (by simpa using h), getD_lt _ _ _ h]
  rw [Array.getElem_modify]
  exact if_pos rfl

theorem modify_erase_length_ge (a : Array (List Nat)) (i x n : Nat) :
    (a.getD n []).length - (if n = i then 1 else 0) ≤
      ((a.modify i (fun l => l.erase x)).getD n []).length := by
  by_cases hn : n = i
  · subst hn
    by_cases hlt : n < a.size
    · rw [getD_modify_same _ hlt, if_pos rfl, List.length_erase]
      by_cases hx : x ∈ a.getD n []
      · rw [if_pos hx]
      · rw [if_neg hx]
        omega
    · rw [getD_ge _ _ _ hlt]
      simp
  · rw [getD_modify_ne _ hn, if_neg hn]
    simp

theorem modify_rename_length (a : Array (List Nat)) (i old new' n : Nat) :
    ((a.modify i (fun l => renameInList l old new')).getD n []).length =
      (a.getD n []).length := by
  by_cases hn : n = i
  · subst hn
    by_cases hlt : n < a.size
    · rw [getD_modify_same _ hlt]
      unfold renameInList
      exact List.length_map _ _
    · rw [getD_ge _ _ _ (by simpa using hlt), getD_ge _ _ _ hlt]
  · rw [getD_modify_ne _ hn]

theorem removeEdge_oob {g : DepGraph} {e : Nat} (h : ¬ e < g.edges.size) :
    removeEdge g e = g := by
  unfold removeEdge
  rw [dif_neg h]

theorem removeEdge_inAdj {g : DepGraph} {e : Nat} (h : e < g.edges.size) :
    (removeEdge g e).inAdj =
      if e = g.edges.size - 1 then
        g.inAdj.modify (g.edge e).dst (fun l => l.erase e)
      else
        (g.inAdj.modify (g.edge e).dst (fun l => l.erase e)).modify
          ((g.edge (g.edges.size - 1)).dst)
          (fun l => renameInList l (g.edges.size - 1) e) := by
  unfold removeEdge
  rw [dif_pos h]
  simp only []
  by_cases he : e = g.edges.size - 1
  · simp only [if_pos he]
  · simp only [if_neg he]

theorem removeEdge_inDegree_ge (g : DepGraph) (e n : Nat) :
    g.inDegree n - (if n = (g.edge e).dst then 1 else 0) ≤
      (removeEdge g e).inDegree n := by
  unfold DepGraph.inDegree DepGraph.inList
  by_cases h : e < g.edges.size
  · rw [removeEdge_inAdj h]
    by_cases he : e = g.edges.size - 1
    · rw [if_pos he]
      exact modify_erase_length_ge g.inAdj _ e n
    · rw [if_neg he, modify_rename_length]
      exact modify_erase_length_ge g.inAdj _ e n
  · rw [removeEdge_oob h]
    exact Nat.sub_le_of_le_add (Nat.le_add_right _ _)

theorem dedupStep_inDegree {g g1 : DepGraph} {e : Nat} {nxt : Option Nat}
    (hstep : dedupStep g e = some (g1, nxt)) (n : Nat)
    (h : 1 ≤ g.inDegree n) : 1 ≤ g1.inDegree n := by
  unfold dedupStep at hstep
  split at hstep
  · simp only [] at hstep
    split at hstep
    · cases hstep
    · rename_i hdeg
      split at hstep
      · cases hstep
        have hge := removeEdge_inDegree_ge g e n
        by_cases hn : n = (g.edge e).dst
        · rw [if_pos hn] at hge
          subst hn
          omega
        · rw [if_neg hn] at hge
          omega
      · cases hstep
        exact h
  · cases hstep

theorem dedupEdges_inDegree (fuel : Nat) :
    ∀ g cur n, 1 ≤ g.inDegree n → 1 ≤ (dedupEdges g cur fuel).inDegree n := by
  induction fuel with
  | zero => intro g cur n h; exact h
  | succ f ih =>
    intro g cur n h
    show 1 ≤ (dedupEdges g cur (f + 1)).inDegree n
    match cur with
    | none => exact h
    | some e =>
      cases hstep : dedupStep g e with
      | none =>
        show 1 ≤ ((match dedupStep g e with
          | none => g
          | some (g1, nxt) => dedupEdges g1 nxt f) : DepGraph).inDegree n
        rw [hstep]
        exact h
      | some pr =>
        obtain ⟨g1, nxt⟩ := pr
        show 1 ≤ ((match dedupStep g e with
          | none => g
          | some (g1, nxt) => dedupEdges g1 nxt f) : DepGraph).inDegree n
        rw [hstep]
        exact ih g1 nxt n (dedupStep_inDegree hstep n h)

theorem dedupFold_inDegree (l : List Nat) :
    ∀ g n, 1 ≤ g.inDegree n → 1 ≤ (l.foldl dedupNode g).inDegree n := by
  induction l with
  | nil => intro g n h; exact h
  | cons a r ih =>
    intro g n h
    exact ih _ n (dedupEdges_inDegree _ g _ n h)

/-- C10: the transitive reducer removes an edge into a node only after
checking that the node has at least two incoming edges, so every node with
at least one incoming edge before reduction still has at least one incoming
edge afterwards. -/
theorem c10_reducer_keeps_incoming (g : DepGraph) (n : Nat)
    (h : 1 ≤ g.inDegree n) : 1 ≤ (dedupTransitiveDeps g).inDegree n :=
  dedupFold_inDegree (List.range g.nodes.size) g n h

/-- Witness for C10 at the concrete propagated diamond graph: node D keeps
an incoming edge through the reduction. -/
theorem c10_reducer_keeps_incoming_witness :
    1 ≤ (dedupTransitiveDeps gDiaDone).inDegree 3 :=
  c10_reducer_keeps_incoming gDiaDone 3 (by decide)

/-! ## Claim C7: roots never acquire a classification -/

theorem getD_push_lt {α : Type _} (a : Array α) (v d : α) {i : Nat} (h : i < a.size) :
    (a.push v).getD i d = a.getD i d := by
  rw [getD_lt _ _ _ (by rw [Array.size_push]; omega), getD_lt _ _ _ h]
  exact Array.getElem_push_lt a v i h

theorem getD_push_eq {α : Type _} (a : Array α) (v d : α) :
    (a.push v).getD a.size d = v := by
  rw [getD_lt _ _ _ (by rw [Array.size_push]; omega)]
  exact Array.getElem_push_eq a v

theorem getD_push_ge {α : Type _} (a : Array α) (v d : α) {i : Nat}
    (h : a.size < i) : (a.push v).getD i d = d :=
  getD_ge _ _ _ (by rw [Array.size_push]; omega)

/-- No root node of the graph carries a classification. -/
def rootNone (g : DepGraph) : Prop :=
  ∀ i, (g.node i).is_root = true → (g.node i).dep_info = none

theorem rootNone_initial : rootNone DepGraph.initial := by
  intro i h
  cases h

theorem node_addNode (g : DepGraph) (p : Package) (i : Nat) :
    ((addNode g p).1).node i =
      if i < g.nodes.size then g.node i
      else if i = g.nodes.size then p else defaultPackage := by
  unfold addNode DepGraph.node
  by_cases h1 : i < g.nodes.size
  · rw [if_pos h1]
    exact getD_push_lt _ _ _ h1
  · rw [if_neg h1]
    by_cases h2 : i = g.nodes.size
    · subst h2
      rw [if_pos rfl]
      exact getD_push_eq _ _ _
    · rw [if_neg h2]
      refine getD_push_ge _ _ _ ?_
      omega

theorem rootNone_addNode {g : DepGraph} {p : Package}
    (hp : p.is_root = true → p.dep_info = none) (h : rootNone g) :
    rootNone (addNode g p).1 := by
  intro i hi
  rw [node_addNode] at hi ⊢
  by_cases h1 : i < g.nodes.size
  · rw [if_pos h1] at hi ⊢
    exact h i hi
  · rw [if_neg h1] at hi ⊢
    by_cases h2 : i = g.nodes.size
    · rw [if_pos h2] at hi ⊢
      exact hp hi
    · rw [if_neg h2] at hi ⊢
      cases hi

theorem nodes_addEdge (g : DepGraph) (a b : Nat) (i : DepInfo) :
    (addEdge g a b i).nodes = g.nodes := rfl

theorem addKindEdges_cons (config : Config) (a b : Nat) (info : DepKindInfo)
    (rest : List DepKindInfo) (g : DepGraph) :
    addKindEdges config a b (info :: rest) g =
      addKindEdges config a b rest
        (if (!skip_dep config info) = true then
          addEdge g a b
            { kind := info.kind.toDepKind,
              is_target_dep := info.target.isSome, visited := false }
        else g) := rfl

theorem nodes_addKindEdges (config : Config) (a b : Nat) (infos : List DepKindInfo)
    (g : DepGraph) : (addKindEdges config a b infos g).nodes = g.nodes := by
  induction infos generalizing g with
  | nil => rfl
  | cons info rest ih =>
    rw [addKindEdges_cons, ih]
    split <;> rfl

theorem rootNone_of_nodes_eq {g g' : DepGraph} (h : g'.nodes = g.nodes)
    (hr : rootNone g) : rootNone g' := by
  intro i
  unfold DepGraph.node
  rw [h]
  exact hr i

theorem rootNone_addWsMembers :
    ∀ (l : List String) (b b' : DepGraphBuilder), rootNone b.graph →
      addWsMembers l b = .ok b' → rootNone b'.graph := by
  intro l
  induction l with
  | nil =>
    intro b b' h heq
    cases heq
    exact h
  | cons pid rest ih =>
    intro b b' h heq
    unfold addWsMembers at heq
    split at heq
    · cases heq
    · split at heq
      · cases heq
      · refine ih _ _ ?_ heq
        exact rootNone_addNode (fun _ => by simp [Package.new]) h

theorem rootNone_addDeps (config : Config) (parent : Nat) :
    ∀ (l : List NodeDep) (b b' : DepGraphBuilder), rootNone b.graph →
      addDeps config parent l b = .ok b' → rootNone b'.graph := by
  intro l
  induction l with
  | nil =>
    intro b b' h heq
    cases heq
    exact h
  | cons dep rest ih =>
    intro b b' h heq
    unfold addDeps at heq
    split at heq
    · exact ih _ _ h heq
    · split at heq
      · refine ih _ _ ?_ heq
        exact rootNone_of_nodes_eq (nodes_addKindEdges _ _ _ _ _) h
      · split at heq
        · cases heq
        · refine ih _ _ ?_ heq
          refine rootNone_of_nodes_eq (nodes_addKindEdges _ _ _ _ _) ?_
          exact rootNone_addNode (fun hh => by cases hh) h

theorem rootNone_addDependencies (config : Config) :
    ∀ (fuel : Nat) (b b' : DepGraphBuilder), rootNone b.graph →
      addDependencies config fuel b = .ok b' → rootNone b'.graph := by
  intro fuel
  induction fuel with
  | zero =>
    intro b b' _ heq
    cases heq
  | succ f ih =>
    intro b b' h heq
    unfold addDependencies at heq
    split at heq
    · cases heq
      exact h
    · split at heq
      · cases heq
      · split at heq
        · cases heq
        · split at heq
          · cases heq
          · rename_i hdeps
            refine ih _ _ (rootNone_addDeps _ _ _ _ _ ?_ hdeps) heq
            exact h

theorem builder_rootNone (fuel : Nat) (md : Metadata) (config : Config)
    (g : DepGraph) (h : getDepGraph fuel md config = .ok g) : rootNone g := by
  unfold getDepGraph at h
  split at h
  · cases h
  · simp only [] at h
    split at h
    · cases h
    · rename_i b1 hws
      split at h
      · cases h
      · rename_i b2 hdeps
        cases h
        refine rootNone_addDependencies config fuel _ _
          (rootNone_addWsMembers _ _ _ ?_ hws) hdeps
        exact rootNone_initial

/-- Pointwise node preservation through the propagation pass: absent
classifications stay absent, rootness is untouched, and presence of a
classification is invariant. -/
def nodePres (g g' : DepGraph) : Prop :=
  (∀ i, (g.node i).dep_info = none → (g'.node i).dep_info = none) ∧
  (∀ i, (g'.node i).is_root = (g.node i).is_root) ∧
  (∀ i, (g'.node i).dep_info.isNone = (g.node i).dep_info.isNone)

theorem nodePres_refl (g : DepGraph) : nodePres g g :=
  ⟨fun _ h => h, fun _ => rfl, fun _ => rfl⟩

theorem nodePres_trans {g1 g2 g3 : DepGraph} (h12 : nodePres g1 g2)
    (h23 : nodePres g2 g3) : nodePres g1 g3 :=
  ⟨fun i h => h23.1 i (h12.1 i h), fun i => (h23.2.1 i).trans (h12.2.1 i),
   fun i => (h23.2.2 i).trans (h12.2.2 i)⟩

theorem nodePres_of_nodes_eq {g g' : DepGraph} (h : g'.nodes = g.nodes) :
    nodePres g g' := by
  have hn : ∀ i, g'.node i = g.node i := by
    intro i
    unfold DepGraph.node
    rw [h]
  exact ⟨fun i hh => (hn i).symm ▸ hh, fun i => by rw [hn i], fun i => by rw [hn i]⟩

/-- `updateNode` preserves node rootness, classification absence and
classification presence, with no well-formedness assumptions. -/
def NodeStmtN (fuel : Nat) : Prop :=
  ∀ g idx g', updateNode fuel g idx = some g' → nodePres g g'

def ProcStmtN (fuel : Nat) : Prop :=
  ∀ g es acc out, processIncoming fuel g es acc = some out → nodePres g out.1

theorem procStmtN_of_nodeStmtN (fuel : Nat) (hnode : NodeStmtN fuel) : ProcStmtN fuel := by
  intro g es acc out heq
  induction es generalizing g acc with
  | nil =>
    rw [processIncoming_nil] at heq
    cases heq
    exact nodePres_refl _
  | cons e rest ih =>
    rw [processIncoming_cons] at heq
    cases hv : (g.edgeInfo e).visited with
    | true =>
      simp only [hv, if_true] at heq
      exact ih g (aggStep g acc e) heq
    | false =>
      simp only [hv, Bool.false_eq_true, if_false] at heq
      cases hu : updateNode fuel g ((g.edge e).src) with
      | none =>
        rw [hu] at heq
        cases heq
      | some gA =>
        rw [hu] at heq
        cases hv2 : (gA.edgeInfo e).visited with
        | false =>
          simp only [hv2, Bool.false_eq_true, if_false] at heq
          cases heq
        | true =>
          simp only [hv2, if_true] at heq
          exact nodePres_trans (hnode g _ gA hu) (ih gA (aggStep gA acc e) heq)

theorem nodeStmtN_succ (fuel : Nat) (hproc : ProcStmtN fuel) : NodeStmtN (fuel + 1) := by
  intro g idx g' heq
  rw [updateNode_succ] at heq
  cases hn : (g.node idx).dep_info.isNone with
  | true =>
    simp only [hn, if_true] at heq
    cases heq
    exact nodePres_of_nodes_eq (overEdges_nodes _ _ _)
  | false =>
    simp only [hn, Bool.false_eq_true, if_false] at heq
    cases hp : processIncoming fuel g (g.inList idx) none with
    | none =>
      rw [hp] at heq
      cases heq
    | some pr =>
      rw [hp] at heq
      obtain ⟨g1, acc1⟩ := pr
      cases acc1 with
      | none => cases heq
      | some ni =>
        simp only at heq
        injection heq with heq'
        have pp1 : nodePres g g1 := hproc g (g.inList idx) none (g1, some ni) hp
        have hsome1 : (g1.node idx).dep_info.isNone = false := by
          rw [pp1.2.2 idx, hn]
        have pp2 : nodePres g1 (setDepInfo g1 idx (some ni)) := by
          refine ⟨?_, ?_, ?_⟩
          · intro i h
            by_cases hi : i = idx
            · subst hi
              rw [h] at hsome1
              cases hsome1
            · rw [node_setDepInfo_ne _ hi]
              exact h
          · intro i
            by_cases hi : i = idx
            · subst hi
              by_cases hlt : i < g1.nodes.size
              · rw [node_setDepInfo_same _ hlt]
              · rw [setDepInfo_oob _ hlt]
            · rw [node_setDepInfo_ne _ hi]
          · intro i
            by_cases hi : i = idx
            · subst hi
              by_cases hlt : i < g1.nodes.size
              · rw [node_setDepInfo_same _ hlt]
                rw [hsome1]
                rfl
              · rw [setDepInfo_oob _ hlt]
            · rw [node_setDepInfo_ne _ hi]
        rw [← heq']
        refine nodePres_trans (nodePres_trans pp1 pp2) ?_
        exact nodePres_of_nodes_eq (overEdges_nodes _ _ _)

theorem propagation_nodePres : ∀ fuel, NodeStmtN fuel ∧ ProcStmtN fuel := by
  intro fuel
  induction fuel with
  | zero =>
    have hn : NodeStmtN 0 := by
      intro g idx g' heq
      rw [updateNode_zero] at heq
      cases heq
    exact ⟨hn, procStmtN_of_nodeStmtN 0 hn⟩
  | succ n ih =>
    have hn : NodeStmtN (n + 1) := nodeStmtN_succ n ih.2
    exact ⟨hn, procStmtN_of_nodeStmtN (n + 1) hn⟩

theorem updateDepInfo_nodePres (fuel : Nat) :
    ∀ (l : List Nat) (g g' : DepGraph),
      l.foldl (fun acc idx => acc.bind fun gx => updateNode fuel gx idx) (some g) = some g' →
      nodePres g g' := by
  intro l
  induction l with
  | nil =>
    intro g g' h
    cases h
    exact nodePres_refl _
  | cons a r ih =>
    intro g g' h
    simp only [List.foldl_cons] at h
    have hstep : (some g).bind (fun gx => updateNode fuel gx a) = updateNode fuel g a := rfl
    rw [hstep] at h
    cases hu : updateNode fuel g a with
    | none =>
      rw [hu, foldl_bind_none] at h
      cases h
    | some g1 =>
      rw [hu] at h
      exact nodePres_trans ((propagation_nodePres fuel).1 g a g1 hu) (ih g1 g' h)

theorem removeEdge_nodes (g : DepGraph) (e : Nat) : (removeEdge g e).nodes = g.nodes := by
  unfold removeEdge
  split
  · simp only []
    split <;> rfl
  · rfl

theorem dedupStep_nodes {g g1 : DepGraph} {e : Nat} {nxt : Option Nat}
    (h : dedupStep g e = some (g1, nxt)) : g1.nodes = g.nodes := by
  unfold dedupStep at h
  split at h
  · simp only [] at h
    split at h
    · cases h
    · split at h
      · cases h
        exact removeEdge_nodes g e
      · cases h
        rfl
  · cases h

theorem dedupEdges_nodes (fuel : Nat) :
    ∀ g cur, (dedupEdges g cur fuel).nodes = g.nodes := by
  induction fuel with
  | zero => intro g cur; rfl
  | succ f ih =>
    intro g cur
    match cur with
    | none => rfl
    | some e =>
      show ((match dedupStep g e with
        | none => g
        | some (g1, nxt) => dedupEdges g1 nxt f) : DepGraph).nodes = g.nodes
      cases hstep : dedupStep g e with
      | none => rfl
      | some pr =>
        obtain ⟨g1, nxt⟩ := pr
        rw [ih g1 nxt, dedupStep_nodes hstep]

theorem dedupTransitiveDeps_nodes (g : DepGraph) :
    (dedupTransitiveDeps g).nodes = g.nodes := by
  unfold dedupTransitiveDeps
  generalize List.range g.nodes.size = l
  induction l generalizing g with
  | nil => rfl
  | cons a r ih =>
    show (r.foldl dedupNode (dedupNode g a)).nodes = g.nodes
    rw [ih (dedupNode g a)]
    exact dedupEdges_nodes _ _ _

/-! ## Claim C7 -/

/-- C7: across the whole pipeline — graph construction, the propagation
pass, and the reduction pass — a root (workspace-member) node never
acquires a classification, regardless of any incoming edges it may have. -/
theorem c7_roots_never_classified (bfuel pfuel : Nat) (md : Metadata)
    (config : Config) (g g1 : DepGraph)
    (hbuild : getDepGraph bfuel md config = .ok g)
    (hpass : updateDepInfo pfuel g = some g1) :
    ∀ i, ((dedupTransitiveDeps g1).node i).is_root = true →
      ((dedupTransitiveDeps g1).node i).dep_info = none := by
  have hroot : rootNone g := builder_rootNone bfuel md config g hbuild
  have pp : nodePres g g1 := updateDepInfo_nodePres pfuel _ g g1 hpass
  have hroot1 : rootNone g1 := by
    intro i hr
    refine pp.1 i (hroot i ?_)
    rw [← pp.2.1 i]
    exact hr
  intro i hr
  have hnn : (dedupTransitiveDeps g1).node i = g1.node i := by
    unfold DepGraph.node
    rw [dedupTransitiveDeps_nodes]
  rw [hnn] at hr ⊢
  exact hroot1 i hr

/-- The metadata of a one-root, one-dependency workspace and the
all-inclusive configuration (concrete data for witnesses). -/
def mdSmall : Metadata :=
  { packages := [{ id := "R" }, { id := "D" }],
    workspace_members := ["R"],
    resolve := some { nodes := [
      { id := "R", deps := [{ pkg := "D", dep_kinds := [{ kind := .normal, target := none }] }] },
      { id := "D", deps := [] }] } }

def cfgAll : Config :=
  { normal_deps := true, build_deps := true, dev_deps := true, target_deps := true }

deriving instance DecidableEq for Except

def gSmallBuilt : DepGraph := ((getDepGraph 4 mdSmall cfgAll).toOption).getD DepGraph.initial

def gSmallDone : DepGraph := (updateDepInfo 4 gSmallBuilt).getD DepGraph.initial

/-- Witness for C7 at the concrete one-dependency workspace: its root node
(index 0) has no classification after building, propagating and reducing. -/
theorem c7_roots_never_classified_witness :
    ((dedupTransitiveDeps gSmallDone).node 0).dep_info = none :=
  c7_roots_never_classified 4 4 mdSmall cfgAll gSmallBuilt gSmallDone
    (by decide) (by decide) 0 (by decide)

/-! ## Claim C8: a missing package record panics, it is not a returned error -/

/-- Discriminator: did construction return an error value to the caller
(as opposed to succeeding or panicking)? -/
def isReturnedErr : Except BuildErr DepGraph → Bool
  | .error (.err _) => true
  | _ => false

/-- Metadata in which the resolved dependency list of the workspace member
`R` references `D`, but no package record for `D` exists. -/
def mdMissing : Metadata :=
  { packages := [{ id := "R" }],
    workspace_members := ["R"],
    resolve := some { nodes := [
      { id := "R",
        deps := [{ pkg := "D", dep_kinds := [{ kind := .normal, target := none }] }] }] } }

/-- C8 (counterexample): on `mdMissing` — a dependency identifier in the
resolved dependency list with no package record — graph construction does
not return an error to the caller: it panics at the `unwrap` of the record
lookup. -/
theorem c8_missing_record_counterexample :
    getDepGraph 4 mdMissing cfgAll =
      .error (.panicked "called Option::unwrap on a None value") ∧
    isReturnedErr (getDepGraph 4 mdMissing cfgAll) = false := by decide

def pkgIds (md : Metadata) : List String := md.packages.map MetaPackage.id

/-- Every unfiltered dependency in `pid`'s resolve entry has a package
record in the metadata. -/
def processedOK (md : Metadata) (config : Config) (res : Resolve) (pid : String) : Prop :=
  ∀ rn, res.nodes.find? (fun n => n.id == pid) = some rn →
    ∀ dep ∈ rn.deps, ¬ (dep.dep_kinds.all (fun i => skip_dep config i) = true) →
      dep.pkg ∈ pkgIds md

/-- Builder data invariant: pending records come from the metadata, every
registered package id has a record in the metadata, and every graph node's
id is registered. -/
def BInv0 (md : Metadata) (b : DepGraphBuilder) : Prop :=
  (∀ op ∈ b.packages, ∀ p : MetaPackage, op = some p → p ∈ md.packages) ∧
  (∀ pr ∈ b.node_indices, pr.1 ∈ pkgIds md) ∧
  (∀ i < b.graph.nodes.size, ∃ k, ((b.graph.node i).id, k) ∈ b.node_indices)

/-- Worklist invariant: every registered package is still queued or has been
processed with all its unfiltered resolved dependencies backed by records. -/
def QInv (md : Metadata) (config : Config) (b : DepGraphBuilder) : Prop :=
  ∀ pr ∈ b.node_indices, pr.1 ∈ b.deps_add_queue ∨ processedOK md config b.resolve pr.1

theorem pop_package_sound :
    ∀ (ps : List (Option MetaPackage)) (pid : String) (p : MetaPackage)
      (ps' : List (Option MetaPackage)), pop_package ps pid = some (p, ps') →
      p.id = pid ∧ some p ∈ ps ∧ (∀ q : MetaPackage, some q ∈ ps' → some q ∈ ps) := by
  intro ps
  induction ps with
  | nil => intro pid p ps' h; cases h
  | cons op rest ih =>
    intro pid p ps' h
    cases op with
    | some q =>
      rw [show pop_package (some q :: rest) pid =
          (if q.id = pid then some (q, none :: rest)
           else (pop_package rest pid).map (fun pr => (pr.1, some q :: pr.2))) from rfl] at h
      by_cases he : q.id = pid
      · rw [if_pos he] at h
        cases h
        refine ⟨he, List.mem_cons_self _ _, ?_⟩
        intro r hr
        rcases List.mem_cons.mp hr with h1 | h1
        · cases h1
        · exact List.mem_cons_of_mem _ h1
      · rw [if_neg he] at h
        cases hrec : pop_package rest pid with
        | none => rw [hrec] at h; cases h
        | some pr =>
          rw [hrec] at h
          obtain ⟨p1, ps1⟩ := pr
          cases h
          obtain ⟨ha, hb, hc⟩ := ih pid p1 ps1 hrec
          refine ⟨ha, List.mem_cons_of_mem _ hb, ?_⟩
          intro r hr
          rcases List.mem_cons.mp hr with h1 | h1
          · rw [h1]
            exact List.mem_cons_self _ _
          · exact List.mem_cons_of_mem _ (hc r h1)
    | none =>
      rw [show pop_package (none :: rest) pid =
          (pop_package rest pid).map (fun pr => (pr.1, none :: pr.2)) from rfl] at h
      cases hrec : pop_package rest pid with
      | none => rw [hrec] at h; cases h
      | some pr =>
        rw [hrec] at h
        obtain ⟨p1, ps1⟩ := pr
        cases h
        obtain ⟨ha, hb, hc⟩ := ih pid p1 ps1 hrec
        refine ⟨ha, List.mem_cons_of_mem _ hb, ?_⟩
        intro r hr
        rcases List.mem_cons.mp hr with h1 | h1
        · cases h1
        · exact List.mem_cons_of_mem _ (hc r h1)

theorem lookup_mem :
    ∀ (l : List (String × Nat)) (k : String) (v : Nat),
      l.lookup k = some v → (k, v) ∈ l := by
  intro l
  induction l with
  | nil => intro k v h; cases h
  | cons pr rest ih =>
    intro k v h
    obtain ⟨a, b⟩ := pr
    unfold List.lookup at h
    cases hab : k == a with
    | true =>
      rw [hab] at h
      simp only at h
      cases h
      have : k = a := eq_of_beq hab
      subst this
      exact List.mem_cons_self _ _
    | false =>
      rw [hab] at h
      simp only at h
      exact List.mem_cons_of_mem _ (ih k v h)

theorem addNode_size (g : DepGraph) (p : Package) :
    (addNode g p).1.nodes.size = g.nodes.size + 1 := by
  unfold addNode
  exact Array.size_push _ _

theorem addNode_snd (g : DepGraph) (p : Package) : (addNode g p).2 = g.nodes.size := rfl

theorem node_of_nodes_eq {g g' : DepGraph} (h : g'.nodes = g.nodes) (i : Nat) :
    g'.node i = g.node i := by
  unfold DepGraph.node
  rw [h]

theorem pkgIds_of_mem {md : Metadata} {p : MetaPackage} (h : p ∈ md.packages) :
    p.id ∈ pkgIds md := List.mem_map.mpr ⟨p, h, rfl⟩

theorem addWsMembers_inv (md : Metadata) (config : Config) :
    ∀ (l : List String) (b b' : DepGraphBuilder),
      BInv0 md b → QInv md config b → addWsMembers l b = .ok b' →
      BInv0 md b' ∧ QInv md config b' ∧ b'.resolve = b.resolve := by
  intro l
  induction l with
  | nil =>
    intro b b' hB hQ heq
    cases heq
    exact ⟨hB, hQ, rfl⟩
  | cons pid rest ih =>
    intro b b' hB hQ heq
    unfold addWsMembers at heq
    split at heq
    · cases heq
    · rename_i pkg packages' hpop
      simp only [] at heq
      split at heq
      · cases heq
      · obtain ⟨hid, hmem, hsub⟩ := pop_package_sound _ _ _ _ hpop
        have hpkg : pkg ∈ md.packages := hB.1 _ hmem pkg rfl
        have hB2 : BInv0 md { b with
            graph := (addNode b.graph (Package.new pkg.id true)).1,
            packages := packages',
            deps_add_queue := b.deps_add_queue ++ [pid],
            node_indices := b.node_indices ++
              [(pid, (addNode b.graph (Package.new pkg.id true)).2)] } := by
          refine ⟨?_, ?_, ?_⟩
          · show ∀ op ∈ packages', ∀ p : MetaPackage, op = some p → p ∈ md.packages
            intro op hop p hop2
            exact hB.1 (some p) (hop2 ▸ hsub p (hop2 ▸ hop)) p rfl
          · show ∀ pr ∈ b.node_indices ++ [(pid, b.graph.nodes.size)], pr.1 ∈ pkgIds md
            intro pr hpr
            rcases List.mem_append.mp hpr with h1 | h1
            · exact hB.2.1 pr h1
            · have h2 := List.mem_singleton.mp h1
              rw [h2]
              show pid ∈ pkgIds md
              rw [← hid]
              exact pkgIds_of_mem hpkg
          · show ∀ i < (addNode b.graph (Package.new pkg.id true)).1.nodes.size,
              ∃ k, (((addNode b.graph (Package.new pkg.id true)).1.node i).id, k) ∈
                b.node_indices ++ [(pid, b.graph.nodes.size)]
            intro i hi
            rw [addNode_size] at hi
            rw [node_addNode]
            by_cases h1 : i < b.graph.nodes.size
            · rw [if_pos h1]
              obtain ⟨k, hk⟩ := hB.2.2 i h1
              exact ⟨k, List.mem_append_left _ hk⟩
            · have h2 : i = b.graph.nodes.size := by omega
              rw [if_neg h1, if_pos h2]
              refine ⟨b.graph.nodes.size, ?_⟩
              show ((Package.new pkg.id true).id, b.graph.nodes.size) ∈
                b.node_indices ++ [(pid, b.graph.nodes.size)]
              rw [show (Package.new pkg.id true).id = pkg.id from rfl, hid]
              exact List.mem_append_right _ (List.mem_singleton.mpr rfl)
        have hQ2 : QInv md config { b with
            graph := (addNode b.graph (Package.new pkg.id true)).1,
            packages := packages',
            deps_add_queue := b.deps_add_queue ++ [pid],
            node_indices := b.node_indices ++
              [(pid, (addNode b.graph (Package.new pkg.id true)).2)] } := by
          show ∀ pr ∈ b.node_indices ++ [(pid, b.graph.nodes.size)],
            pr.1 ∈ b.deps_add_queue ++ [pid] ∨ processedOK md config b.resolve pr.1
          intro pr hpr
          rcases List.mem_append.mp hpr with h1 | h1
          · rcases hQ pr h1 with h2 | h2
            · exact Or.inl (List.mem_append_left _ h2)
            · exact Or.inr h2
          · have h2 := List.mem_singleton.mp h1
            rw [h2]
            exact Or.inl (List.mem_append_right _ (List.mem_singleton.mpr rfl))
        have hres := ih _ b' hB2 hQ2 heq
        exact ⟨hres.1, hres.2.1, hres.2.2⟩

theorem BInv0_congr {md : Metadata} {b b' : DepGraphBuilder}
    (hni : b'.node_indices = b.node_indices) (hpk : b'.packages = b.packages)
    (hg : b'.graph.nodes = b.graph.nodes) (h : BInv0 md b) : BInv0 md b' := by
  refine ⟨?_, ?_, ?_⟩
  · intro op hop
    rw [hpk] at hop
    exact h.1 op hop
  · intro pr hpr
    rw [hni] at hpr
    exact h.2.1 pr hpr
  · intro i hi
    have hnode : b'.graph.node i = b.graph.node i := by
      unfold DepGraph.node
      rw [hg]
    rw [hg] at hi
    obtain ⟨k, hk⟩ := h.2.2 i hi
    refine ⟨k, ?_⟩
    rw [hni, hnode]
    exact hk

theorem addDeps_inv (md : Metadata) (config : Config) (parent_idx : Nat) :
    ∀ (l : List NodeDep) (b b' : DepGraphBuilder),
      BInv0 md b → addDeps config parent_idx l b = .ok b' →
      BInv0 md b' ∧ b'.resolve = b.resolve ∧
      (∀ pid ∈ b.deps_add_queue, pid ∈ b'.deps_add_queue) ∧
      (∀ pr ∈ b'.node_indices, pr ∈ b.node_indices ∨ pr.1 ∈ b'.deps_add_queue) ∧
      (∀ dep ∈ l, ¬ (dep.dep_kinds.all (fun i => skip_dep config i) = true) →
        dep.pkg ∈ pkgIds md) := by
  intro l
  induction l with
  | nil =>
    intro b b' hB heq
    cases heq
    exact ⟨hB, rfl, fun _ h => h, fun pr h => Or.inl h, by intro dep hd; cases hd⟩
  | cons dep rest ih =>
    intro b b' hB heq
    unfold addDeps at heq
    split at heq
    · rename_i hall
      obtain ⟨h1, h2, h3, h4, h5⟩ := ih b b' hB heq
      refine ⟨h1, h2, h3, h4, ?_⟩
      intro d hd hsk
      rcases List.mem_cons.mp hd with hc | hc
      · subst hc
        exact absurd hall hsk
      · exact h5 d hc hsk
    · rename_i hnall
      split at heq
      · rename_i child_idx hlook
        have hB2 : BInv0 md { b with
            graph := addKindEdges config parent_idx child_idx dep.dep_kinds b.graph } :=
          @BInv0_congr md b _ rfl rfl (nodes_addKindEdges _ _ _ _ _) hB
        obtain ⟨h1, h2, h3, h4, h5⟩ := ih _ b' hB2 heq
        refine ⟨h1, h2, h3, h4, ?_⟩
        intro d hd hsk
        rcases List.mem_cons.mp hd with hc | hc
        · subst hc
          exact hB.2.1 _ (lookup_mem _ _ _ hlook)
        · exact h5 d hc hsk
      · split at heq
        · cases heq
        · rename_i pkg packages' hpop
          obtain ⟨hid, hmem, hsub⟩ := pop_package_sound _ _ _ _ hpop
          have hpkg : pkg ∈ md.packages := hB.1 _ hmem pkg rfl
          have hB2 : BInv0 md { b with
              graph := addKindEdges config parent_idx
                (addNode b.graph (Package.new pkg.id false)).2 dep.dep_kinds
                (addNode b.graph (Package.new pkg.id false)).1,
              packages := packages',
              deps_add_queue := b.deps_add_queue ++ [dep.pkg],
              node_indices := b.node_indices ++
                [(dep.pkg, (addNode b.graph (Package.new pkg.id false)).2)] } := by
            refine ⟨?_, ?_, ?_⟩
            · show ∀ op ∈ packages', ∀ p : MetaPackage, op = some p → p ∈ md.packages
              intro op hop p hop2
              exact hB.1 (some p) (hop2 ▸ hsub p (hop2 ▸ hop)) p rfl
            · show ∀ pr ∈ b.node_indices ++ [(dep.pkg, b.graph.nodes.size)],
                pr.1 ∈ pkgIds md
              intro pr hpr
              rcases List.mem_append.mp hpr with h1 | h1
              · exact hB.2.1 pr h1
              · have h2 := List.mem_singleton.mp h1
                rw [h2]
                show dep.pkg ∈ pkgIds md
                rw [← hid]
                exact pkgIds_of_mem hpkg
            · intro i hi
              have hns : (addKindEdges config parent_idx
                  (addNode b.graph (Package.new pkg.id false)).2 dep.dep_kinds
                  (addNode b.graph (Package.new pkg.id false)).1).nodes =
                  (addNode b.graph (Package.new pkg.id false)).1.nodes :=
                nodes_addKindEdges _ _ _ _ _
              have hnode : ∀ j, (addKindEdges config parent_idx
                  (addNode b.graph (Package.new pkg.id false)).2 dep.dep_kinds
                  (addNode b.graph (Package.new pkg.id false)).1).node j =
                  (addNode b.graph (Package.new pkg.id false)).1.node j := by
                intro j
                unfold DepGraph.node
                rw [hns]
              have hi2 : i < b.graph.nodes.size + 1 := by
                have hsz : (addKindEdges config parent_idx
                    (addNode b.graph (Package.new pkg.id false)).2 dep.dep_kinds
                    (addNode b.graph (Package.new pkg.id false)).1).nodes.size =
                    b.graph.nodes.size + 1 := by
                  rw [hns, addNode_size]
                rw [← hsz]
                exact hi
              refine ?_
              show ∃ k, (((addKindEdges config parent_idx
                  (addNode b.graph (Package.new pkg.id false)).2 dep.dep_kinds
                  (addNode b.graph (Package.new pkg.id false)).1).node i).id, k) ∈
                b.node_indices ++ [(dep.pkg, b.graph.nodes.size)]
              rw [hnode i, node_addNode]
              by_cases h1 : i < b.graph.nodes.size
              · rw [if_pos h1]
                obtain ⟨k, hk⟩ := hB.2.2 i h1
                exact ⟨k, List.mem_append_left _ hk⟩
              · have h2 : i = b.graph.nodes.size := by omega
                rw [if_neg h1, if_pos h2]
                refine ⟨b.graph.nodes.size, ?_⟩
                show ((Package.new pkg.id false).id, b.graph.nodes.size) ∈
                  b.node_indices ++ [(dep.pkg, b.graph.nodes.size)]
                rw [show (Package.new pkg.id false).id = pkg.id from rfl, hid]
                exact List.mem_append_right _ (List.mem_singleton.mpr rfl)
          obtain ⟨h1, h2, h3, h4, h5⟩ := ih _ b' hB2 heq
          refine ⟨h1, h2, ?_, ?_, ?_⟩
          · intro pid hpid
            exact h3 pid (List.mem_append_left _ hpid)
          · intro pr hpr
            rcases h4 pr hpr with hc | hc
            · rcases List.mem_append.mp hc with hd | hd
              · exact Or.inl hd
              · have h6 := List.mem_singleton.mp hd
                refine Or.inr ?_
                rw [h6]
                exact h3 dep.pkg (List.mem_append_right _ (List.mem_singleton.mpr rfl))
            · exact Or.inr hc
          · intro d hd hsk
            rcases List.mem_cons.mp hd with hc | hc
            · subst hc
              rw [← hid]
              exact pkgIds_of_mem hpkg
            · exact h5 d hc hsk

theorem addDependencies_inv (md : Metadata) (config : Config) :
    ∀ (fuel : Nat) (b b' : DepGraphBuilder),
      BInv0 md b → QInv md config b → addDependencies config fuel b = .ok b' →
      BInv0 md b' ∧ b'.resolve = b.resolve ∧
      (∀ pr ∈ b'.node_indices, processedOK md config b'.resolve pr.1) := by
  intro fuel
  induction fuel with
  | zero =>
    intro b b' _ _ heq
    cases heq
  | succ f ih =>
    intro b b' hB hQ heq
    unfold addDependencies at heq
    split at heq
    · cases heq
      refine ⟨hB, rfl, ?_⟩
      intro pr hpr
      rename_i hqueue
      rcases hQ pr hpr with hc | hc
      · rw [hqueue] at hc
        cases hc
      · exact hc
    · rename_i pid qrest hqueue
      split at heq
      · cases heq
      · rename_i parent_idx hlook
        split at heq
        · cases heq
        · rename_i rn hfind
          split at heq
          · cases heq
          · rename_i b2 hdeps
            have hBmid : BInv0 md { b with deps_add_queue := qrest } :=
              @BInv0_congr md b _ rfl rfl rfl hB
            obtain ⟨hB2, hres2, hqmono, hniorg, hdepsOK⟩ :=
              addDeps_inv md config parent_idx rn.deps _ b2 hBmid hdeps
            have hpOK : processedOK md config b.resolve pid := by
              intro rn' hfind'
              rw [hfind] at hfind'
              cases hfind'
              intro d hd hsk
              exact hdepsOK d hd hsk
            have hQ2 : QInv md config b2 := by
              intro pr hpr
              rcases hniorg pr hpr with hc | hc
              · rcases hQ pr hc with hd | hd
                · rw [hqueue] at hd
                  rcases List.mem_cons.mp hd with he | he
                  · refine Or.inr ?_
                    rw [hres2]
                    show processedOK md config b.resolve pr.1
                    rw [he]
                    exact hpOK
                  · exact Or.inl (hqmono pr.1 he)
                · refine Or.inr ?_
                  rw [hres2]
                  exact hd
              · exact Or.inl hc
            obtain ⟨hBf, hresf, hPf⟩ := ih b2 b' hB2 hQ2 heq
            exact ⟨hBf, hresf.trans hres2, hPf⟩

theorem builder_processed (fuel : Nat) (md : Metadata) (config : Config)
    (g : DepGraph) (h : getDepGraph fuel md config = .ok g) :
    ∀ i < g.nodes.size,
      processedOK md config (md.resolve.getD { nodes := [] }) ((g.node i).id) := by
  unfold getDepGraph at h
  split at h
  · cases h
  · rename_i resolve hres
    simp only [] at h
    split at h
    · cases h
    · rename_i b1 hws
      split at h
      · cases h
      · rename_i b2 hdeps
        cases h
        have hB0 : BInv0 md
            { graph := DepGraph.initial, node_indices := [], deps_add_queue := [],
              workspace_members := md.workspace_members,
              packages := md.packages.map some, resolve := resolve } := by
          refine ⟨?_, ?_, ?_⟩
          · intro op hop p hop2
            obtain ⟨q, hq, hq2⟩ := List.mem_map.mp hop
            rw [hop2] at hq2
            cases hq2
            exact hq
          · intro pr hpr
            cases hpr
          · intro i hi
            cases hi
        have hQ0 : QInv md config
            { graph := DepGraph.initial, node_indices := [], deps_add_queue := [],
              workspace_members := md.workspace_members,
              packages := md.packages.map some, resolve := resolve } := by
          intro pr hpr
          cases hpr
        obtain ⟨hB1, hQ1, hres1⟩ := addWsMembers_inv md config _ _ b1 hB0 hQ0 hws
        obtain ⟨hB2, hres2, hP2⟩ := addDependencies_inv md config fuel b1 b2 hB1 hQ1 hdeps
        intro i hi
        obtain ⟨k, hk⟩ := hB2.2.2 i hi
        have := hP2 _ hk
        rw [hres2, hres1] at this
        rw [hres, Option.getD_some]
        exact this

/-- C8 (amended): if graph construction returns a graph, then every
unfiltered dependency in the resolve entry of any constructed package has a
package record; contrapositively, whenever a dependency identifier in the
resolved dependency list of a constructed package has no corresponding
package record, construction does not return a graph (the record lookup is
an `unwrap`, so the failure is a panic — see the counterexample theorem —
not a returned `MissingPackageRecord`-style error). -/
theorem c8_missing_record_panics (fuel : Nat) (md : Metadata) (config : Config)
    (g : DepGraph) (pid : String) (i : Nat) (rn : ResolveNode) (dep : NodeDep)
    (hok : getDepGraph fuel md config = .ok g)
    (hi : i < g.nodes.size) (hid : (g.node i).id = pid)
    (hfind : (md.resolve.getD { nodes := [] }).nodes.find? (fun n => n.id == pid) = some rn)
    (hdep : dep ∈ rn.deps)
    (hskip : ¬ (dep.dep_kinds.all (fun k => skip_dep config k) = true)) :
    dep.pkg ∈ pkgIds md := by
  have hp := builder_processed fuel md config g hok i hi
  rw [hid] at hp
  exact hp rn hfind dep hdep hskip

/-- Witness for the amended C8 at the concrete one-dependency workspace:
construction succeeds, so the dependency `D` of the constructed package `R`
has a package record. -/
theorem c8_missing_record_panics_witness : ("D" : String) ∈ pkgIds mdSmall :=
  c8_missing_record_panics 4 mdSmall cfgAll gSmallBuilt "R" 0
    { id := "R", deps := [{ pkg := "D", dep_kinds := [{ kind := .normal, target := none }] }] }
    { pkg := "D", dep_kinds := [{ kind := .normal, target := none }] }
    (by decide) (by decide) (by decide) (by decide) (by decide) (by decide)

/-! ## Claim C6: idempotence of the propagation pass

The pass stabilizes a graph: a node is *done* when its outgoing edges are
visited and (for a non-root) its classification equals the aggregate of its
(visited) incoming edges, each outgoing edge having absorbed it.  The
invariant `IInv` — every visited edge's source is done — holds through the
pass; a completed pass leaves every node done, and `update_node` is the
identity on done nodes. -/

def allVisitedL (g : DepGraph) (es : List Nat) : Prop :=
  ∀ e ∈ es, (g.edgeInfo e).visited = true

def absorbedL (g : DepGraph) (es : List Nat) (d : DepInfo) : Prop :=
  ∀ e ∈ es, pushVal (g.edgeInfo e) d = g.edgeInfo e

/-- Node `idx` is finalized: its outgoing edges are visited, and — when it
has a classification — its incoming edges are visited, its classification
is their aggregate and its outgoing edges have absorbed it. -/
def doneAt (g : DepGraph) (idx : Nat) : Prop :=
  ((g.node idx).dep_info = none → allVisitedL g (g.outList idx)) ∧
  (∀ d, (g.node idx).dep_info = some d →
    allVisitedL g (g.outList idx) ∧ allVisitedL g (g.inList idx) ∧
    aggIncoming g (g.inList idx) none = some d ∧ absorbedL g (g.outList idx) d)

/-- Every visited edge's source node is done. -/
def IInv (g : DepGraph) : Prop :=
  ∀ e, (g.edgeInfo e).visited = true → doneAt g ((g.edge e).src)

/-- Visited edges keep their exact value. -/
def EqOn (g g' : DepGraph) : Prop :=
  ∀ e, (g.edgeInfo e).visited = true → g'.edgeInfo e = g.edgeInfo e

/-- Done nodes keep their value and stay done. -/
def DonePres (g g' : DepGraph) : Prop :=
  ∀ n, doneAt g n → g'.node n = g.node n ∧ doneAt g' n

theorem markVal_id {i : DepInfo} (h : i.visited = true) : markVal i = i := by
  unfold markVal
  cases i
  simp at h
  rw [h]

theorem pushVal_visited (i d : DepInfo) : (pushVal i d).visited = true := rfl

theorem pushVal_idem (i d : DepInfo) : pushVal (pushVal i d) d = pushVal i d := by
  unfold pushVal DepKind.update_outgoing
  cases i
  rename_i k ts v
  cases k <;> cases d.kind <;> simp [kindRank, Bool.or_assoc]

theorem aggStep_congr {g g' : DepGraph} {e : Nat} (h : g'.edgeInfo e = g.edgeInfo e)
    (acc : Option DepInfo) : aggStep g' acc e = aggStep g acc e := by
  unfold aggStep
  rw [h]

theorem aggIncoming_congr {g g' : DepGraph} :
    ∀ (es : List Nat), (∀ e ∈ es, g'.edgeInfo e = g.edgeInfo e) →
      ∀ acc, aggIncoming g' es acc = aggIncoming g es acc := by
  intro es
  induction es with
  | nil => intro _ acc; rfl
  | cons e rest ih =>
    intro h acc
    show aggIncoming g' rest (aggStep g' acc e) = aggIncoming g rest (aggStep g acc e)
    rw [aggStep_congr (h e (List.mem_cons_self e rest)) acc]
    exact ih (fun e' he' => h e' (List.mem_cons_of_mem e he')) _

theorem WF_transport {g g' : DepGraph} (hs : structPres g g') (hwf : WF g) : WF g' := by
  obtain ⟨s1, s2, s3, s4, s5, s6⟩ := hs
  have houtl : ∀ n, g'.outList n = g.outList n := by
    intro n
    unfold DepGraph.outList
    rw [s3]
  have hinl : ∀ n, g'.inList n = g.inList n := by
    intro n
    unfold DepGraph.inList
    rw [s4]
  refine ⟨?_, ?_, ?_, ?_, ?_, ?_, ?_⟩
  · rw [show g'.outAdj = g.outAdj from s3, s1]
    exact hwf.1
  · rw [show g'.inAdj = g.inAdj from s4, s1]
    exact hwf.2.1
  · intro n hn e he
    rw [s1] at hn
    rw [houtl] at he
    rw [s2, (s5 e).1]
    exact hwf.2.2.1 n hn e he
  · intro n hn e he
    rw [s1] at hn
    rw [hinl] at he
    rw [s2, (s5 e).2]
    exact hwf.2.2.2.1 n hn e he
  · intro n hn
    rw [s1] at hn
    rw [houtl]
    exact hwf.2.2.2.2.1 n hn
  · intro e he
    rw [s2] at he
    rw [s1, (s5 e).1, (s5 e).2, houtl, hinl]
    exact hwf.2.2.2.2.2.1 e he
  · intro i hi
    rw [s1] at hi
    rw [(s6 i).2.1, (s6 i).2.2]
    exact hwf.2.2.2.2.2.2 i hi

theorem WF.out_mem {g : DepGraph} (hwf : WF g) {n e : Nat} (he : e ∈ g.outList n) :
    e < g.edges.size ∧ (g.edge e).src = n := by
  by_cases hn : n < g.nodes.size
  · exact hwf.2.2.1 n hn e he
  · rw [outList_ge hwf.1 hn] at he
    cases he

theorem WF.in_mem {g : DepGraph} (hwf : WF g) {n e : Nat} (he : e ∈ g.inList n) :
    e < g.edges.size ∧ (g.edge e).dst = n := by
  by_cases hn : n < g.nodes.size
  · exact hwf.2.2.2.1 n hn e he
  · rw [inList_ge hwf.2.1 hn] at he
    cases he

theorem WF.out_nodup {g : DepGraph} (hwf : WF g) (n : Nat) : (g.outList n).Nodup := by
  by_cases hn : n < g.nodes.size
  · exact hwf.2.2.2.2.1 n hn
  · rw [outList_ge hwf.1 hn]
    exact List.nodup_nil

theorem WF.no_self_loop {g : DepGraph} (hwf : WF g) {e : Nat} (he : e < g.edges.size) :
    (g.edge e).src ≠ (g.edge e).dst := (hwf.2.2.2.2.2.1 e he).2.2.1

/-- An edge cannot be both incoming and outgoing at `idx` (no self-loops). -/
theorem WF.not_in_out {g : DepGraph} (hwf : WF g) {idx e : Nat}
    (hin : e ∈ g.inList idx) (hout : e ∈ g.outList idx) : False := by
  obtain ⟨hlt, hdst⟩ := hwf.in_mem hin
  obtain ⟨_, hsrc⟩ := hwf.out_mem hout
  exact hwf.no_self_loop hlt (hsrc.trans hdst.symm)

/-- Dichotomy: a node that is not done has no visited outgoing edge. -/
theorem notDone_unvisited {g : DepGraph} (hwf : WF g) (hI : IInv g) {idx : Nat}
    (hnd : ¬ doneAt g idx) {e : Nat} (he : e ∈ g.outList idx) :
    (g.edgeInfo e).visited = false := by
  cases hv : (g.edgeInfo e).visited with
  | false => rfl
  | true =>
    exfalso
    apply hnd
    have := hI e hv
    rw [(hwf.out_mem he).2] at this
    exact this

def MLOut (g g' : DepGraph) : Prop :=
  structPres g g' ∧ WF g' ∧ IInv g' ∧ EqOn g g' ∧ DonePres g g'

theorem MLOut_refl (g : DepGraph) (hwf : WF g) (hI : IInv g) : MLOut g g :=
  ⟨structPres_refl g, hwf, hI, fun _ _ => rfl, fun _ h => ⟨rfl, h⟩⟩

theorem visited_of_eq {g g' : DepGraph} {e : Nat} (hval : g'.edgeInfo e = g.edgeInfo e)
    (h : (g.edgeInfo e).visited = true) : (g'.edgeInfo e).visited = true := by
  rw [hval]
  exact h

theorem MLOut_trans {g g1 g2 : DepGraph} (h1 : MLOut g g1) (h2 : MLOut g1 g2) :
    MLOut g g2 := by
  obtain ⟨s1, w1, i1, e1, d1⟩ := h1
  obtain ⟨s2, w2, i2, e2, d2⟩ := h2
  refine ⟨structPres_trans s1 s2, w2, i2, ?_, ?_⟩
  · intro e hv
    have hval1 := e1 e hv
    have hval2 := e2 e (visited_of_eq hval1 hv)
    exact hval2.trans hval1
  · intro n hd
    obtain ⟨hn1, hd1⟩ := d1 n hd
    obtain ⟨hn2, hd2⟩ := d2 n hd1
    exact ⟨hn2.trans hn1, hd2⟩

theorem edgeInfo_setDepInfo (g : DepGraph) (idx : Nat) (di : Option DepInfo) (e : Nat) :
    (setDepInfo g idx di).edgeInfo e = g.edgeInfo e := rfl

theorem outList_setDepInfo (g : DepGraph) (idx : Nat) (di : Option DepInfo) (n : Nat) :
    (setDepInfo g idx di).outList n = g.outList n := rfl

theorem inList_setDepInfo (g : DepGraph) (idx : Nat) (di : Option DepInfo) (n : Nat) :
    (setDepInfo g idx di).inList n = g.inList n := rfl

theorem overEdges_outList (f : DepInfo → DepInfo) (es : List Nat) (g : DepGraph) (n : Nat) :
    (overEdges f g es).outList n = g.outList n := by
  unfold DepGraph.outList
  rw [(structPres_overEdges f es g).2.2.1]

theorem overEdges_inList (f : DepInfo → DepInfo) (es : List Nat) (g : DepGraph) (n : Nat) :
    (overEdges f g es).inList n = g.inList n := by
  unfold DepGraph.inList
  rw [(structPres_overEdges f es g).2.2.2.1]

/-- Edge-value characterization of `overEdges` used below: untouched edges
keep their value. -/
theorem overEdges_val_notMem (f : DepInfo → DepInfo) {es : List Nat} {e : Nat}
    (g : DepGraph) (h : e ∉ es) : (overEdges f g es).edgeInfo e = g.edgeInfo e := by
  unfold DepGraph.edgeInfo
  rw [overEdges_notMem f g h]

theorem markAll_case (g : DepGraph) (idx : Nat) (hwf : WF g) (hI : IInv g)
    (hnone : (g.node idx).dep_info = none) :
    MLOut g (markAllVisited g (g.outList idx)) ∧
    doneAt (markAllVisited g (g.outList idx)) idx := by
  have hnd := hwf.out_nodup idx
  have hsp : structPres g (markAllVisited g (g.outList idx)) :=
    structPres_overEdges markVal (g.outList idx) g
  have hnode : ∀ n, (markAllVisited g (g.outList idx)).node n = g.node n := by
    intro n
    unfold markAllVisited
    exact overEdges_node markVal (g.outList idx) g n
  have hval_mem : ∀ e ∈ g.outList idx,
      (markAllVisited g (g.outList idx)).edgeInfo e = markVal (g.edgeInfo e) := by
    intro e he
    exact overEdges_mem_nodup markVal g hnd he (hwf.out_mem he).1
  have hval_not : ∀ e, e ∉ g.outList idx →
      (markAllVisited g (g.outList idx)).edgeInfo e = g.edgeInfo e := by
    intro e he
    exact overEdges_val_notMem markVal g he
  have heqOn : EqOn g (markAllVisited g (g.outList idx)) := by
    intro e hv
    by_cases he : e ∈ g.outList idx
    · rw [hval_mem e he, markVal_id hv]
    · exact hval_not e he
  have hwrit : ∀ e ∈ g.outList idx,
      ((markAllVisited g (g.outList idx)).edgeInfo e).visited = true := by
    intro e he
    exact overEdges_written_visited markVal (fun _ => rfl) g he (hwf.out_mem he).1
  have hmono : ∀ e, (g.edgeInfo e).visited = true →
      ((markAllVisited g (g.outList idx)).edgeInfo e).visited = true := by
    intro e hv
    exact overEdges_visited_mono markVal (fun _ => rfl) g e hv
  have hdpres : DonePres g (markAllVisited g (g.outList idx)) := by
    intro n hd
    refine ⟨hnode n, ?_, ?_⟩
    · intro hn
      rw [hnode n] at hn
      intro e he
      rw [structPres_outList hsp n] at he
      exact hmono e (hd.1 hn e he)
    · intro d hdn
      rw [hnode n] at hdn
      obtain ⟨hout, hin, hagg, habs⟩ := hd.2 d hdn
      have hinval : ∀ e ∈ g.inList n,
          (markAllVisited g (g.outList idx)).edgeInfo e = g.edgeInfo e := by
        intro e he
        exact heqOn e (hin e he)
      have houtval : ∀ e ∈ g.outList n,
          (markAllVisited g (g.outList idx)).edgeInfo e = g.edgeInfo e := by
        intro e he
        exact heqOn e (hout e he)
      refine ⟨?_, ?_, ?_, ?_⟩
      · intro e he
        rw [structPres_outList hsp n] at he
        exact hmono e (hout e he)
      · intro e he
        rw [structPres_inList hsp n] at he
        rw [hinval e he]
        exact hin e he
      · rw [structPres_inList hsp n]
        rw [aggIncoming_congr (g.inList n) hinval none]
        exact hagg
      · intro e he
        rw [structPres_outList hsp n] at he
        rw [houtval e he]
        exact habs e he
  have hdone : doneAt (markAllVisited g (g.outList idx)) idx := by
    refine ⟨?_, ?_⟩
    · intro _
      intro e he
      rw [structPres_outList hsp idx] at he
      exact hwrit e he
    · intro d hd
      rw [hnode idx, hnone] at hd
      cases hd
  refine ⟨⟨hsp, WF_transport hsp hwf, ?_, heqOn, hdpres⟩, hdone⟩
  intro e hv
  by_cases he : e ∈ g.outList idx
  · have hsrc : ((markAllVisited g (g.outList idx)).edge e).src = idx := by
      rw [(hsp.2.2.2.2.1 e).1]
      exact (hwf.out_mem he).2
    rw [hsrc]
    exact hdone
  · have hval := hval_not e he
    have hvg : (g.edgeInfo e).visited = true := by
      rw [← hval]
      exact hv
    have hdg := hI e hvg
    obtain ⟨hn2, hd2⟩ := hdpres _ hdg
    rw [(hsp.2.2.2.2.1 e).1]
    exact hd2

theorem finalize_done_eq (g1 : DepGraph) (idx : Nat) (d : DepInfo)
    (hd : (g1.node idx).dep_info = some d)
    (habs : absorbedL g1 (g1.outList idx) d) :
    pushOutgoing (setDepInfo g1 idx (some d))
      ((setDepInfo g1 idx (some d)).outList idx) d = g1 := by
  rw [show setDepInfo g1 idx (some d) = g1 from by rw [← hd]; exact setDepInfo_self g1 idx]
  exact overEdges_id _ g1 habs

theorem some_of_isNone_false {p : Package} (h : p.dep_info.isNone = false) :
    ∃ d, p.dep_info = some d := by
  cases hd : p.dep_info with
  | none => rw [hd] at h; cases h
  | some d => exact ⟨d, rfl⟩

theorem finalize_case (g1 : DepGraph) (idx : Nat) (ni : DepInfo)
    (hwf : WF g1) (hI : IInv g1)
    (hsome : (g1.node idx).dep_info.isNone = false)
    (hinvis : allVisitedL g1 (g1.inList idx))
    (hagg : aggIncoming g1 (g1.inList idx) none = some ni) :
    MLOut g1 (pushOutgoing (setDepInfo g1 idx (some ni))
      ((setDepInfo g1 idx (some ni)).outList idx) ni) ∧
    doneAt (pushOutgoing (setDepInfo g1 idx (some ni))
      ((setDepInfo g1 idx (some ni)).outList idx) ni) idx := by
  have hlt1 : idx < g1.nodes.size := node_lt_of_isNone_false hsome
  obtain ⟨d, hd⟩ := some_of_isNone_false hsome
  by_cases hdone : doneAt g1 idx
  · obtain ⟨hout, hin, haggd, habs⟩ := hdone.2 d hd
    have hni : ni = d := by
      rw [haggd] at hagg
      injection hagg with h
      exact h.symm
    subst hni
    rw [finalize_done_eq g1 idx ni hd habs]
    exact ⟨MLOut_refl g1 hwf hI, hdone⟩
  · have hunv : ∀ e ∈ g1.outList idx, (g1.edgeInfo e).visited = false :=
      fun e he => notDone_unvisited hwf hI hdone he
    have hnd := hwf.out_nodup idx
    have sp2 : structPres g1 (setDepInfo g1 idx (some ni)) :=
      structPres_setDepInfo_some g1 idx ni hsome
    have spp : structPres (setDepInfo g1 idx (some ni))
        (pushOutgoing (setDepInfo g1 idx (some ni))
          ((setDepInfo g1 idx (some ni)).outList idx) ni) :=
      structPres_overEdges _ _ _
    have sp := structPres_trans sp2 spp
    have hval_mem : ∀ e ∈ g1.outList idx,
        (pushOutgoing (setDepInfo g1 idx (some ni))
          ((setDepInfo g1 idx (some ni)).outList idx) ni).edgeInfo e =
        pushVal (g1.edgeInfo e) ni := by
      intro e he
      exact overEdges_mem_nodup (fun i => pushVal i ni) (setDepInfo g1 idx (some ni))
        hnd he (hwf.out_mem he).1
    have hval_not : ∀ e, e ∉ g1.outList idx →
        (pushOutgoing (setDepInfo g1 idx (some ni))
          ((setDepInfo g1 idx (some ni)).outList idx) ni).edgeInfo e = g1.edgeInfo e := by
      intro e he
      exact overEdges_val_notMem (fun i => pushVal i ni) _ he
    have hwrit : ∀ e ∈ g1.outList idx,
        ((pushOutgoing (setDepInfo g1 idx (some ni))
          ((setDepInfo g1 idx (some ni)).outList idx) ni).edgeInfo e).visited = true := by
      intro e he
      exact overEdges_written_visited (fun i => pushVal i ni) (fun _ => rfl)
        (setDepInfo g1 idx (some ni)) he (hwf.out_mem he).1
    have hnode' : ∀ n, (pushOutgoing (setDepInfo g1 idx (some ni))
        ((setDepInfo g1 idx (some ni)).outList idx) ni).node n =
        (setDepInfo g1 idx (some ni)).node n :=
      fun n => overEdges_node _ _ _ n
    have hnodeIdx : (pushOutgoing (setDepInfo g1 idx (some ni))
        ((setDepInfo g1 idx (some ni)).outList idx) ni).node idx =
        { g1.node idx with dep_info := some ni } := by
      rw [hnode' idx]
      exact node_setDepInfo_same _ hlt1
    have hnodeNe : ∀ n, n ≠ idx → (pushOutgoing (setDepInfo g1 idx (some ni))
        ((setDepInfo g1 idx (some ni)).outList idx) ni).node n = g1.node n := by
      intro n hne
      rw [hnode' n]
      exact node_setDepInfo_ne _ hne
    have heqOn : EqOn g1 (pushOutgoing (setDepInfo g1 idx (some ni))
        ((setDepInfo g1 idx (some ni)).outList idx) ni) := by
      intro e hv
      by_cases he : e ∈ g1.outList idx
      · rw [hunv e he] at hv
        cases hv
      · exact hval_not e he
    have hdone' : doneAt (pushOutgoing (setDepInfo g1 idx (some ni))
        ((setDepInfo g1 idx (some ni)).outList idx) ni) idx := by
      have hdi : ((pushOutgoing (setDepInfo g1 idx (some ni))
          ((setDepInfo g1 idx (some ni)).outList idx) ni).node idx).dep_info = some ni := by
        rw [hnodeIdx]
      refine ⟨?_, ?_⟩
      · intro h
        rw [hdi] at h
        cases h
      · intro d' hd'
        rw [hdi] at hd'
        injection hd' with hd''
        subst hd''
        refine ⟨?_, ?_, ?_, ?_⟩
        · intro e he
          rw [structPres_outList sp idx] at he
          exact hwrit e he
        · intro e he
          rw [structPres_inList sp idx] at he
          have hni : e ∉ g1.outList idx := fun hmem => hwf.not_in_out he hmem
          rw [hval_not e hni]
          exact hinvis e he
        · rw [structPres_inList sp idx]
          rw [aggIncoming_congr (g1.inList idx)
            (fun e he => hval_not e (fun hmem => hwf.not_in_out he hmem)) none]
          exact hagg
        · intro e he
          rw [structPres_outList sp idx] at he
          rw [hval_mem e he, pushVal_idem]
    have hdpres : DonePres g1 (pushOutgoing (setDepInfo g1 idx (some ni))
        ((setDepInfo g1 idx (some ni)).outList idx) ni) := by
      intro n hdn
      have hne : n ≠ idx := by
        intro h
        subst h
        exact hdone hdn
      have houtvals : ∀ e ∈ g1.outList n,
          (pushOutgoing (setDepInfo g1 idx (some ni))
            ((setDepInfo g1 idx (some ni)).outList idx) ni).edgeInfo e = g1.edgeInfo e := by
        intro e he
        refine hval_not e ?_
        intro hmem
        exact hne ((hwf.out_mem he).2.symm.trans (hwf.out_mem hmem).2)
      have hinvals : ∀ e ∈ g1.inList n, (g1.edgeInfo e).visited = true →
          (pushOutgoing (setDepInfo g1 idx (some ni))
            ((setDepInfo g1 idx (some ni)).outList idx) ni).edgeInfo e = g1.edgeInfo e := by
        intro e _ hv
        exact heqOn e hv
      refine ⟨hnodeNe n hne, ?_, ?_⟩
      · intro h
        rw [hnodeNe n hne] at h
        intro e he
        rw [structPres_outList sp n] at he
        rw [houtvals e he]
        exact hdn.1 h e he
      · intro d' hd'
        rw [hnodeNe n hne] at hd'
        obtain ⟨hout, hin, haggd, habs⟩ := hdn.2 d' hd'
        refine ⟨?_, ?_, ?_, ?_⟩
        · intro e he
          rw [structPres_outList sp n] at he
          rw [houtvals e he]
          exact hout e he
        · intro e he
          rw [structPres_inList sp n] at he
          rw [hinvals e he (hin e he)]
          exact hin e he
        · rw [structPres_inList sp n]
          rw [aggIncoming_congr (g1.inList n) (fun e he => hinvals e he (hin e he)) none]
          exact haggd
        · intro e he
          rw [structPres_outList sp n] at he
          rw [houtvals e he]
          exact habs e he
    have hIinv : IInv (pushOutgoing (setDepInfo g1 idx (some ni))
        ((setDepInfo g1 idx (some ni)).outList idx) ni) := by
      intro e hv
      by_cases he : e ∈ g1.outList idx
      · have hsrc : ((pushOutgoing (setDepInfo g1 idx (some ni))
            ((setDepInfo g1 idx (some ni)).outList idx) ni).edge e).src = idx := by
          rw [(sp.2.2.2.2.1 e).1]
          exact (hwf.out_mem he).2
        rw [hsrc]
        exact hdone'
      · have hval := hval_not e he
        have hvg : (g1.edgeInfo e).visited = true := by
          rw [← hval]
          exact hv
        obtain ⟨_, hd2⟩ := hdpres _ (hI e hvg)
        rw [(sp.2.2.2.2.1 e).1]
        exact hd2
    exact ⟨⟨sp, WF_transport sp hwf, hIinv, heqOn, hdpres⟩, hdone'⟩

theorem updateNode_done_id (fuel : Nat) {g : DepGraph} {idx : Nat}
    (hdone : doneAt g idx) :
    updateNode (fuel + 1) g idx = some g := by
  rw [updateNode_succ]
  cases hd : (g.node idx).dep_info with
  | none =>
    rw [if_pos (show (none : Option DepInfo).isNone = true from rfl)]
    have hall := hdone.1 hd
    rw [show markAllVisited g (g.outList idx) = g from
      overEdges_id markVal g (fun e he => markVal_id (hall e he))]
  | some d =>
    rw [if_neg (show ¬ (some d).isNone = true from fun h => Bool.false_ne_true h)]
    obtain ⟨hout, hin, hagg, habs⟩ := hdone.2 d hd
    rw [processIncoming_allVisited fuel g (g.inList idx) none hin, hagg]
    show some (pushOutgoing (setDepInfo g idx (some d))
      ((setDepInfo g idx (some d)).outList idx) d) = some g
    rw [finalize_done_eq g idx d hd habs]

theorem updateFold_done_id (fuel : Nat) (g : DepGraph) (l : List Nat)
    (hdone : ∀ n ∈ l, doneAt g n) :
    l.foldl (fun acc idx => acc.bind fun gx => updateNode (fuel + 1) gx idx)
      (some g) = some g := by
  induction l with
  | nil => rfl
  | cons n rest ih =>
    rw [List.foldl_cons, show ((some g).bind fun gx => updateNode (fuel + 1) gx n) = some g from
      updateNode_done_id fuel (hdone n (List.mem_cons_self n rest))]
    exact ih (fun m hm => hdone m (List.mem_cons_of_mem n hm))

/-- Induction statement for the stabilization analysis of `update_node`: on
success from a well-formed invariant state, the run preserves structure,
visited-edge values and done nodes, restores the invariants, and leaves the
processed node done. -/
def NodeStmtC (fuel : Nat) : Prop :=
  ∀ g idx g', WF g → IInv g → updateNode fuel g idx = some g' →
    MLOut g g' ∧ doneAt g' idx

/-- Induction statement for `processIncoming` in the stabilization
analysis: additionally, the final accumulator is the pure aggregate of the
processed edges over the final graph. -/
def ProcStmtC (fuel : Nat) : Prop :=
  ∀ g es acc out, WF g → IInv g → processIncoming fuel g es acc = some out →
    MLOut g out.1 ∧ (∀ e ∈ es, (out.1.edgeInfo e).visited = true) ∧
    out.2 = aggIncoming out.1 es acc

theorem procStmtC_of_nodeStmtC (fuel : Nat) (hnode : NodeStmtC fuel) : ProcStmtC fuel := by
  intro g es acc out hwf hI heq
  induction es generalizing g acc with
  | nil =>
    rw [processIncoming_nil] at heq
    cases heq
    exact ⟨MLOut_refl g hwf hI, (by intro e he; cases he), rfl⟩
  | cons e rest ih =>
    rw [processIncoming_cons] at heq
    cases hv : (g.edgeInfo e).visited with
    | true =>
      simp only [hv, if_true] at heq
      obtain ⟨ml, vis, hacc⟩ := ih g (aggStep g acc e) hwf hI heq
      refine ⟨ml, ?_, ?_⟩
      · intro e' he'
        rcases List.mem_cons.mp he' with h | h
        · subst h
          exact visited_of_eq (ml.2.2.2.1 e' hv) hv
        · exact vis e' h
      · show out.2 = aggIncoming out.1 rest (aggStep out.1 acc e)
        rw [hacc, aggStep_congr (ml.2.2.2.1 e hv) acc]
    | false =>
      simp only [hv, Bool.false_eq_true, if_false] at heq
      cases hu : updateNode fuel g ((g.edge e).src) with
      | none =>
        rw [hu] at heq
        cases heq
      | some gA =>
        rw [hu] at heq
        obtain ⟨mlA, _⟩ := hnode g _ gA hwf hI hu
        cases hv2 : (gA.edgeInfo e).visited with
        | false =>
          simp only [hv2, Bool.false_eq_true, if_false] at heq
          cases heq
        | true =>
          simp only [hv2, if_true] at heq
          obtain ⟨mlR, visR, haccR⟩ := ih gA (aggStep gA acc e) mlA.2.1 mlA.2.2.1 heq
          refine ⟨MLOut_trans mlA mlR, ?_, ?_⟩
          · intro e' he'
            rcases List.mem_cons.mp he' with h | h
            · subst h
              exact visited_of_eq (mlR.2.2.2.1 e' hv2) hv2
            · exact visR e' h
          · show out.2 = aggIncoming out.1 rest (aggStep out.1 acc e)
            rw [haccR, aggStep_congr (mlR.2.2.2.1 e hv2) acc]

theorem nodeStmtC_succ (fuel : Nat) (hproc : ProcStmtC fuel) : NodeStmtC (fuel + 1) := by
  intro g idx g' hwf hI heq
  rw [updateNode_succ] at heq
  cases hn : (g.node idx).dep_info.isNone with
  | true =>
    simp only [hn, if_true] at heq
    injection heq with heq'
    rw [← heq']
    exact markAll_case g idx hwf hI (isNone_eq_none hn)
  | false =>
    simp only [hn, Bool.false_eq_true, if_false] at heq
    cases hp : processIncoming fuel g (g.inList idx) none with
    | none =>
      rw [hp] at heq
      cases heq
    | some pr =>
      rw [hp] at heq
      obtain ⟨g1, acc1⟩ := pr
      cases acc1 with
      | none => cases heq
      | some ni =>
        simp only at heq
        obtain ⟨ml1, vis1, hacc1⟩ := hproc g (g.inList idx) none (g1, some ni) hwf hI hp
        have hsome1 : (g1.node idx).dep_info.isNone = false := by
          rw [(ml1.1.2.2.2.2.2 idx).2.2, hn]
        have hinl : g1.inList idx = g.inList idx := structPres_inList ml1.1 idx
        have hagg1 : aggIncoming g1 (g1.inList idx) none = some ni := by
          rw [hinl]
          exact hacc1.symm
        have hvis1 : allVisitedL g1 (g1.inList idx) := by
          intro e he
          rw [hinl] at he
          exact vis1 e he
        obtain ⟨ml2, hd2⟩ := finalize_case g1 idx ni ml1.2.1 ml1.2.2.1 hsome1 hvis1 hagg1
        injection heq with heq'
        rw [← heq']
        exact ⟨MLOut_trans ml1 ml2, hd2⟩

theorem propagation_doneC : ∀ fuel, NodeStmtC fuel ∧ ProcStmtC fuel := by
  intro fuel
  induction fuel with
  | zero =>
    have hn : NodeStmtC 0 := by
      intro g idx g' _ _ heq
      rw [updateNode_zero] at heq
      cases heq
    exact ⟨hn, procStmtC_of_nodeStmtC 0 hn⟩
  | succ n ih =>
    have hn : NodeStmtC (n + 1) := nodeStmtC_succ n ih.2
    exact ⟨hn, procStmtC_of_nodeStmtC (n + 1) hn⟩

theorem updateFold_doneC (fuel : Nat) (l : List Nat) :
    ∀ g g', WF g → IInv g →
      l.foldl (fun acc idx => acc.bind fun gx => updateNode fuel gx idx) (some g) = some g' →
      MLOut g g' ∧ ∀ n ∈ l, doneAt g' n := by
  induction l with
  | nil =>
    intro g g' hwf hI heq
    injection heq with heq'
    subst heq'
    exact ⟨MLOut_refl g hwf hI, (by intro n hn; cases hn)⟩
  | cons n rest ih =>
    intro g g' hwf hI heq
    rw [List.foldl_cons] at heq
    cases hu : updateNode fuel g n with
    | none =>
      rw [show ((some g).bind fun gx => updateNode fuel gx n) = updateNode fuel g n from rfl,
        hu, foldl_bind_none] at heq
      cases heq
    | some g1 =>
      rw [show ((some g).bind fun gx => updateNode fuel gx n) = updateNode fuel g n from rfl,
        hu] at heq
      obtain ⟨ml1, hd1⟩ := (propagation_doneC fuel).1 g n g1 hwf hI hu
      obtain ⟨mlR, hdR⟩ := ih g1 g' ml1.2.1 ml1.2.2.1 heq
      refine ⟨MLOut_trans ml1 mlR, ?_⟩
      intro m hm
      rcases List.mem_cons.mp hm with h | h
      · subst h
        exact (mlR.2.2.2.2 m hd1).2
      · exact hdR m h

/-- After a completed pass from a well-formed all-invariant state, every
node (in range or not) is finalized. -/
theorem updateDepInfo_doneC (fuel : Nat) (g g' : DepGraph) (hwf : WF g) (hI : IInv g)
    (heq : updateDepInfo fuel g = some g') :
    MLOut g g' ∧ ∀ n, doneAt g' n := by
  obtain ⟨ml, hd⟩ := updateFold_doneC fuel (List.range g.nodes.size) g g' hwf hI heq
  refine ⟨ml, ?_⟩
  intro n
  by_cases hn : n < g.nodes.size
  · exact hd n (List.mem_range.mpr hn)
  · have hwf2 : WF g' := ml.2.1
    have hsz : g'.nodes.size = g.nodes.size := ml.1.1
    have hnone : (g'.node n).dep_info = none := by
      unfold DepGraph.node
      rw [getD_ge _ _ _ (by rw [hsz]; exact hn)]
      rfl
    have hout : g'.outList n = [] := outList_ge hwf2.1 (by rw [hsz]; exact hn)
    constructor
    · intro _
      rw [hout]
      intro e he
      cases he
    · intro d hd2
      rw [hnone] at hd2
      cases hd2

theorem updateDepInfo_allDone_id (m : Nat) (g : DepGraph)
    (hd : ∀ n, doneAt g n) :
    updateDepInfo (m + 1) g = some g := by
  unfold updateDepInfo
  exact updateFold_done_id m g (List.range g.nodes.size) (fun n _ => hd n)

theorem edgeInfo_ge {g : DepGraph} {e : Nat} (h : ¬ e < g.edges.size) :
    g.edgeInfo e = DepInfo.defaultInfo := by
  unfold DepGraph.edgeInfo DepGraph.edge
  rw [getD_ge _ _ _ h]
  rfl

/-- C6: running the propagation pass a second time on a graph on which it
has already completed is the identity — every node keeps the exact
classification computed by the first pass, and no edge's `visited` flag (or
any other edge field) changes.  The graph the first pass started from is
assumed well-formed with all edges unvisited, as the builder produces it;
`fuel + 1` is any positive recursion budget for the second pass. -/
theorem c6_second_pass_identity (fuel m : Nat) (g g1 : DepGraph)
    (hwf : WF g) (hunv : ∀ e, e < g.edges.size → (g.edgeInfo e).visited = false)
    (h1 : updateDepInfo fuel g = some g1) :
    updateDepInfo (m + 1) g1 = some g1 := by
  have hI : IInv g := by
    intro e hv
    by_cases he : e < g.edges.size
    · rw [hunv e he] at hv
      cases hv
    · rw [edgeInfo_ge he] at hv
      cases hv
  obtain ⟨_, hd⟩ := updateDepInfo_doneC fuel g g1 hwf hI h1
  exact updateDepInfo_allDone_id m g1 hd

/-- Witness for C6: on the diamond graph, a second pass over the graph
produced by the first pass returns it unchanged. -/
theorem c6_second_pass_identity_witness :
    (WF gDiamond ∧ (∀ e, e < gDiamond.edges.size → (gDiamond.edgeInfo e).visited = false) ∧
      updateDepInfo 8 gDiamond = some gDiaDone) ∧
    updateDepInfo 1 gDiaDone = some gDiaDone :=
  ⟨⟨by decide, by decide, by decide⟩,
    c6_second_pass_identity 8 0 gDiamond gDiaDone (by decide) (by decide) (by decide)⟩
